import Mathlib

/-!
Shallow embedding of the PrismForge pipeline-graph validator/executor
(src/unnamed/part_007) and of the billing/usage handlers
(src/server/src/handlers/experiments.ts), together with proofs about the
claims concerning them.

JavaScript runtime values are modelled by the inductive type JsVal below;
property access, truthiness and the typeof/Array.isArray tests follow the
JavaScript semantics used by the source.  Numbers are modelled as exact
integers (the source only ever handles integral token counts, timestamps
and counters).  Thrown exceptions are modelled with Except.
-/

/-- Model of a JavaScript runtime value as used by the handlers. -/
inductive JsVal where
  | null
  | undefined
  | bool (b : Bool)
  | num (n : Int)
  | str (s : String)
  | arr (elems : List JsVal)
  | obj (fields : List (String × JsVal))
deriving Repr

mutual

/-- Structural decidable equality on JsVal.  JavaScript compares Set and Map
keys with SameValueZero, which agrees with structural equality on the
primitive values (strings in every validated graph) that ever serve as keys
in the source. -/
def JsVal.decEq : (a b : JsVal) → Decidable (a = b)
  | .null, .null => isTrue rfl
  | .null, .undefined => isFalse (fun h => JsVal.noConfusion h)
  | .null, .bool _ => isFalse (fun h => JsVal.noConfusion h)
  | .null, .num _ => isFalse (fun h => JsVal.noConfusion h)
  | .null, .str _ => isFalse (fun h => JsVal.noConfusion h)
  | .null, .arr _ => isFalse (fun h => JsVal.noConfusion h)
  | .null, .obj _ => isFalse (fun h => JsVal.noConfusion h)
  | .undefined, .null => isFalse (fun h => JsVal.noConfusion h)
  | .undefined, .undefined => isTrue rfl
  | .undefined, .bool _ => isFalse (fun h => JsVal.noConfusion h)
  | .undefined, .num _ => isFalse (fun h => JsVal.noConfusion h)
  | .undefined, .str _ => isFalse (fun h => JsVal.noConfusion h)
  | .undefined, .arr _ => isFalse (fun h => JsVal.noConfusion h)
  | .undefined, .obj _ => isFalse (fun h => JsVal.noConfusion h)
  | .bool _, .null => isFalse (fun h => JsVal.noConfusion h)
  | .bool _, .undefined => isFalse (fun h => JsVal.noConfusion h)
  | .bool x, .bool y =>
      if h : x = y then isTrue (by rw [h]) else isFalse (fun hh => h (by injection hh))
  | .bool _, .num _ => isFalse (fun h => JsVal.noConfusion h)
  | .bool _, .str _ => isFalse (fun h => JsVal.noConfusion h)
  | .bool _, .arr _ => isFalse (fun h => JsVal.noConfusion h)
  | .bool _, .obj _ => isFalse (fun h => JsVal.noConfusion h)
  | .num _, .null => isFalse (fun h => JsVal.noConfusion h)
  | .num _, .undefined => isFalse (fun h => JsVal.noConfusion h)
  | .num _, .bool _ => isFalse (fun h => JsVal.noConfusion h)
  | .num x, .num y =>
      if h : x = y then isTrue (by rw [h]) else isFalse (fun hh => h (by injection hh))
  | .num _, .str _ => isFalse (fun h => JsVal.noConfusion h)
  | .num _, .arr _ => isFalse (fun h => JsVal.noConfusion h)
  | .num _, .obj _ => isFalse (fun h => JsVal.noConfusion h)
  | .str _, .null => isFalse (fun h => JsVal.noConfusion h)
  | .str _, .undefined => isFalse (fun h => JsVal.noConfusion h)
  | .str _, .bool _ => isFalse (fun h => JsVal.noConfusion h)
  | .str _, .num _ => isFalse (fun h => JsVal.noConfusion h)
  | .str x, .str y =>
      if h : x = y then isTrue (by rw [h]) else isFalse (fun hh => h (by injection hh))
  | .str _, .arr _ => isFalse (fun h => JsVal.noConfusion h)
  | .str _, .obj _ => isFalse (fun h => JsVal.noConfusion h)
  | .arr _, .null => isFalse (fun h => JsVal.noConfusion h)
  | .arr _, .undefined => isFalse (fun h => JsVal.noConfusion h)
  | .arr _, .bool _ => isFalse (fun h => JsVal.noConfusion h)
  | .arr _, .num _ => isFalse (fun h => JsVal.noConfusion h)
  | .arr _, .str _ => isFalse (fun h => JsVal.noConfusion h)
  | .arr x, .arr y =>
      match JsVal.decEqList x y with
      | isTrue h => isTrue (by rw [h])
      | isFalse h => isFalse (fun hh => h (by injection hh))
  | .arr _, .obj _ => isFalse (fun h => JsVal.noConfusion h)
  | .obj _, .null => isFalse (fun h => JsVal.noConfusion h)
  | .obj _, .undefined => isFalse (fun h => JsVal.noConfusion h)
  | .obj _, .bool _ => isFalse (fun h => JsVal.noConfusion h)
  | .obj _, .num _ => isFalse (fun h => JsVal.noConfusion h)
  | .obj _, .str _ => isFalse (fun h => JsVal.noConfusion h)
  | .obj _, .arr _ => isFalse (fun h => JsVal.noConfusion h)
  | .obj x, .obj y =>
      match JsVal.decEqFields x y with
      | isTrue h => isTrue (by rw [h])
      | isFalse h => isFalse (fun hh => h (by injection hh))

/-- Decidable equality on lists of JsVal. -/
def JsVal.decEqList : (as bs : List JsVal) → Decidable (as = bs)
  | [], [] => isTrue rfl
  | [], _ :: _ => isFalse (fun h => List.noConfusion h)
  | _ :: _, [] => isFalse (fun h => List.noConfusion h)
  | a :: as, b :: bs =>
      match JsVal.decEq a b, JsVal.decEqList as bs with
      | isTrue h1, isTrue h2 => isTrue (by rw [h1, h2])
      | isFalse h1, _ => isFalse (fun hh => by injection hh with hh1 hh2; exact h1 hh1)
      | _, isFalse h2 => isFalse (fun hh => by injection hh with hh1 hh2; exact h2 hh2)

/-- Decidable equality on object field lists. -/
def JsVal.decEqFields : (as bs : List (String × JsVal)) → Decidable (as = bs)
  | [], [] => isTrue rfl
  | [], _ :: _ => isFalse (fun h => List.noConfusion h)
  | _ :: _, [] => isFalse (fun h => List.noConfusion h)
  | (k, v) :: as, (l, w) :: bs =>
      if hk : k = l then
        match JsVal.decEq v w, JsVal.decEqFields as bs with
        | isTrue h1, isTrue h2 => isTrue (by rw [hk, h1, h2])
        | isFalse h1, _ => isFalse (fun hh => by
            injection hh with hh1 hh2
            injection hh1 with hk1 hv1
            exact h1 hv1)
        | _, isFalse h2 => isFalse (fun hh => by injection hh with hh1 hh2; exact h2 hh2)
      else isFalse (fun hh => by
        injection hh with hh1 hh2
        injection hh1 with hk1 hv1
        exact hk hk1)

end

instance : DecidableEq JsVal := JsVal.decEq

instance {ε α : Type} [DecidableEq ε] [DecidableEq α] : DecidableEq (Except ε α) := fun a b =>
  match a, b with
  | .ok x, .ok y =>
      if h : x = y then isTrue (by rw [h]) else isFalse (fun hh => h (by injection hh))
  | .error x, .error y =>
      if h : x = y then isTrue (by rw [h]) else isFalse (fun hh => h (by injection hh))
  | .ok _, .error _ => isFalse (fun h => Except.noConfusion h)
  | .error _, .ok _ => isFalse (fun h => Except.noConfusion h)

/-- A thrown JavaScript exception: either an explicit thrown Error with a
message, or a TypeError raised by the runtime (property access on
null/undefined); the runtime message text is recorded for faithfulness to
the calls that surface it. -/
inductive JsErr where
  | jsError (msg : String)
  | jsTypeError (msg : String)
deriving Repr, DecidableEq

/-- Property access.  Reading a property of null or undefined throws a
TypeError; reading a missing property of an object (or any property of a
primitive or array, for the property names the source uses) yields
undefined. -/
def JsVal.getField : JsVal → String → Except JsErr JsVal
  | .null, f => .error (.jsTypeError ("Cannot read properties of null (reading '" ++ f ++ "')"))
  | .undefined, f => .error (.jsTypeError ("Cannot read properties of undefined (reading '" ++ f ++ "')"))
  | .obj fields, f => .ok ((fields.lookup f).getD .undefined)
  | _, _ => .ok .undefined

/-- JavaScript truthiness. -/
def JsVal.truthy : JsVal → Bool
  | .null => false
  | .undefined => false
  | .bool b => b
  | .num n => n != 0
  | .str s => s != ""
  | .arr _ => true
  | .obj _ => true

/-- The test typeof v equals the string "string". -/
def JsVal.isStr : JsVal → Bool
  | .str _ => true
  | _ => false

/-- The test typeof v equals the string "object" (true for null, arrays and
plain objects). -/
def JsVal.typeofObject : JsVal → Bool
  | .null => true
  | .arr _ => true
  | .obj _ => true
  | _ => false

/-- The test Array.isArray v. -/
def JsVal.isArray : JsVal → Bool
  | .arr _ => true
  | _ => false

/-- Set.add of the JavaScript Set class: appends the element when absent,
otherwise leaves the set unchanged (only membership is ever observed). -/
def setAdd {α : Type} [DecidableEq α] (l : List α) (x : α) : List α :=
  if x ∈ l then l else x :: l

/-! ## The pipeline graph validator (validatePipelineGraph and hasCycle) -/

/-- Result record of validatePipelineGraph. -/
structure ValidationResult where
  valid : Bool
  errors : List String
deriving Repr, DecidableEq

/-- Processing of one node of the nodes loop of validatePipelineGraph
(lines 270-284 of the source).  State: accumulated errors and the nodeIds
set.  The source condition "not node.id, or typeof node.id is not the
string type" holds exactly when the id field is not a nonempty string. -/
def nodeStep (acc : List String × List String) (node : JsVal) :
    Except JsErr (List String × List String) := do
  let idv ← node.getField "id"
  match idv with
  | .str s =>
    if s = "" then
      pure (acc.1 ++ ["Each node must have a string id"], acc.2)
    else
      let errs1 := if s ∈ acc.2 then acc.1 ++ ["Duplicate node id: " ++ s] else acc.1
      let ids1 := setAdd acc.2 s
      let tyv ← node.getField "type"
      match tyv with
      | .str t =>
        if t = "" then pure (errs1 ++ ["Node " ++ s ++ " must have a string type"], ids1)
        else pure (errs1, ids1)
      | _ => pure (errs1 ++ ["Node " ++ s ++ " must have a string type"], ids1)
  | _ => pure (acc.1 ++ ["Each node must have a string id"], acc.2)

/-- The nodes loop of validatePipelineGraph. -/
def nodesLoop : List JsVal → List String × List String →
    Except JsErr (List String × List String)
  | [], acc => .ok acc
  | nd :: rest, acc => do nodesLoop rest (← nodeStep acc nd)

/-- Processing of one edge of the edges loop of validatePipelineGraph
(lines 287-306 of the source). -/
def edgeStep (nodeIds : List String) (errors : List String) (edge : JsVal) :
    Except JsErr (List String) := do
  let sv ← edge.getField "source"
  match sv with
  | .str s =>
    if s = "" then pure (errors ++ ["Each edge must have a string source"])
    else do
      let tv ← edge.getField "target"
      match tv with
      | .str t =>
        if t = "" then pure (errors ++ ["Each edge must have a string target"])
        else
          let errs1 := if s ∈ nodeIds then errors
            else errors ++ ["Edge references non-existent source node: " ++ s]
          let errs2 := if t ∈ nodeIds then errs1
            else errs1 ++ ["Edge references non-existent target node: " ++ t]
          pure errs2
      | _ => pure (errors ++ ["Each edge must have a string target"])
  | _ => pure (errors ++ ["Each edge must have a string source"])

/-- The edges loop of validatePipelineGraph. -/
def edgesLoop (nodeIds : List String) : List JsVal → List String →
    Except JsErr (List String)
  | [], errors => .ok errors
  | ed :: rest, errors => do edgesLoop nodeIds rest (← edgeStep nodeIds errors ed)

/-- Adjacency list of hasCycle: a JavaScript Map from node-id values to
arrays of target-id values, modelled as an insertion-ordered association
list. -/
def JsAdj : Type := List (JsVal × List JsVal)

/-- Map.get: the value stored under the first matching key, if any. -/
def adjGet : JsAdj → JsVal → Option (List JsVal)
  | [], _ => none
  | (k, v) :: rest, x => if k = x then some v else adjGet rest x

/-- Map.set: replaces the value under an existing key in place, otherwise
appends a new entry. -/
def adjSet : JsAdj → JsVal → List JsVal → JsAdj
  | [], x, v => [(x, v)]
  | (k, w) :: rest, x, v => if k = x then (x, v) :: rest else (k, w) :: adjSet rest x v

/-- The neighbor list the DFS reads for a key: adjacencyList.get(u) with
an absent key giving the empty list (the "or else empty array" of the
source applies to the absent case only, arrays being truthy). -/
def adjSucc (adj : JsAdj) (u : JsVal) : List JsVal := (adjGet adj u).getD []

/-- First phase of the adjacency construction of hasCycle: an empty entry
per node id (lines 333-335). -/
def adjAddNodes : List JsVal → JsAdj → Except JsErr JsAdj
  | [], m => .ok m
  | nd :: rest, m => do
      let idv ← nd.getField "id"
      adjAddNodes rest (adjSet m idv [])

/-- Second phase of the adjacency construction of hasCycle: each edge
appends its target to the entry of its source, creating the entry when the
source was never declared (lines 337-341). -/
def adjAddEdges : List JsVal → JsAdj → Except JsErr JsAdj
  | [], m => .ok m
  | ed :: rest, m => do
      let sv ← ed.getField "source"
      let tv ← ed.getField "target"
      adjAddEdges rest (adjSet m sv (adjSucc m sv ++ [tv]))

/-- The loop over the neighbors of the current node inside dfs
(lines 348-357): an unvisited neighbor is explored recursively through f
(the dfs one recursion level down); a visited neighbor on the recursion
stack is a back edge and reports a cycle.  Once a cycle is reported the
remaining neighbors are not examined (the early return of the source). -/
def dfsNeighbors (f : List JsVal → List JsVal → JsVal → Bool × List JsVal × List JsVal) :
    List JsVal → List JsVal → List JsVal → Bool × List JsVal × List JsVal
  | visited, stack, [] => (false, visited, stack)
  | visited, stack, n :: rest =>
      if n ∈ visited then
        if n ∈ stack then (true, visited, stack)
        else dfsNeighbors f visited stack rest
      else
        let r := f visited stack n
        if r.1 then r else dfsNeighbors f r.2.1 r.2.2 rest

/-- The recursive dfs of hasCycle (lines 344-361).  The two shared mutable
sets (visited, recursionStack) are threaded explicitly; the returned
triple is (result, visited, recursionStack).  The fuel argument is an
artifact of the embedding: the JavaScript recursion terminates because
every call visits a previously unvisited node, and hasCycle below supplies
fuel that provably never runs out (every lemma carries the matching
fuel-sufficiency hypothesis, discharged at the hasCycle call site). -/
def dfsVisit (adj : JsAdj) : Nat → List JsVal → List JsVal → JsVal →
    Bool × List JsVal × List JsVal
  | 0, visited, stack, _ => (false, visited, stack)
  | fuel + 1, visited, stack, u =>
      let r := dfsNeighbors (dfsVisit adj fuel) (setAdd visited u) (setAdd stack u)
        (adjSucc adj u)
      if r.1 then r else (false, r.2.1, r.2.2.erase u)

/-- The outer loop of hasCycle (lines 363-369): a dfs from every node id
not yet visited, sharing the visited and recursionStack sets. -/
def hasCycleLoop (adj : JsAdj) (fuel : Nat) :
    List JsVal → List JsVal → List JsVal → Except JsErr Bool
  | [], _, _ => .ok false
  | nd :: rest, visited, stack => do
      let idv ← nd.getField "id"
      if idv ∈ visited then hasCycleLoop adj fuel rest visited stack
      else
        let r := dfsVisit adj fuel visited stack idv
        if r.1 then .ok true
        else hasCycleLoop adj fuel rest r.2.1 r.2.2

/-- The helper hasCycle (lines 327-372): builds the adjacency list, then
runs the dfs from every unvisited node id.  The supplied fuel bounds the
dfs recursion depth; it exceeds the number of distinct visitable keys, so
it is never exhausted (see the fuel-sufficiency hypotheses discharged in
hasCycleLoop_spec). -/
def hasCycle (nodes edges : List JsVal) : Except JsErr Bool := do
  let adj0 ← adjAddNodes nodes []
  let adj ← adjAddEdges edges adj0
  hasCycleLoop adj (nodes.length + edges.length + 1) nodes [] []

/-- The body of validatePipelineGraph inside its try block (lines 246-316);
a thrown exception surfaces as Except.error. -/
def validateInner (graph : JsVal) : Except JsErr ValidationResult := do
  if ¬ (graph.truthy && graph.typeofObject) then
    return ⟨false, ["Graph must be a valid object"]⟩
  let nodesV ← graph.getField "nodes"
  let edgesV ← graph.getField "edges"
  match nodesV, edgesV with
  | .arr nodes, .arr edges =>
      let acc ← nodesLoop nodes ([], [])
      let errsE ← edgesLoop acc.2 edges acc.1
      let cyc ← hasCycle nodes edges
      let errsC := if cyc then errsE ++ ["Pipeline graph contains cycles"] else errsE
      return ⟨errsC.isEmpty, errsC⟩
  | nv, ev =>
      -- at least one of the two checks of lines 256-266 failed, so the
      -- function returns early with the structural errors
      let errs1 : List String :=
        if ¬ (nv.truthy && nv.isArray) then ["Graph must contain a nodes array"] else []
      let errs2 : List String :=
        if ¬ (ev.truthy && ev.isArray) then errs1 ++ ["Graph must contain an edges array"]
        else errs1
      return ⟨false, errs2⟩

/-- validatePipelineGraph (lines 242-324): the catch clause converts any
exception thrown during validation into the single generic internal-error
entry, so the function as a whole never raises. -/
def validatePipelineGraph (graph : JsVal) : ValidationResult :=
  match validateInner graph with
  | .ok r => r
  | .error _ => ⟨false, ["Validation failed due to internal error"]⟩

/-! ## Database model

Rows of the tables the verified handlers touch (src/server/src/db/schema.ts).
Timestamps are epoch milliseconds modelled as integers; plan enums are the
strings the handlers compare against.  Columns never read by the handlers
under verification (labels, scopes, audit metadata, ...) are omitted. -/

/-- A row of the organizations table. -/
structure OrgRow where
  id : String
  plan : String
deriving Repr, DecidableEq

/-- A row of the projects table. -/
structure ProjectRow where
  id : String
  org_id : String
deriving Repr, DecidableEq

/-- A row of the runs table (token metrics and timestamp only). -/
structure RunRow where
  id : String
  project_id : String
  tokens_in : Int
  tokens_out : Int
  created_at : Int
deriving Repr, DecidableEq

/-- A row of the billing table. -/
structure BillingRow where
  org_id : String
  stripe_customer_id : Option String
  plan : String
  seats : Int
  metered_quota : Int
  renews_at : Option Int
deriving Repr, DecidableEq

/-- A row of the pipelines table. -/
structure PipelineRow where
  id : String
  project_id : String
  graph : JsVal
  status : String
  endpoint_slug : Option String
deriving Repr, DecidableEq

/-- A row of the api_keys table. -/
structure ApiKeyRow where
  id : String
  org_id : String
  token_hash : String
deriving Repr, DecidableEq

/-- The database state seen by the handlers. -/
structure DB where
  organizations : List OrgRow
  projects : List ProjectRow
  runs : List RunRow
  billing : List BillingRow
  pipelines : List PipelineRow
  apiKeys : List ApiKeyRow
deriving Repr, DecidableEq

/-! ## Billing handlers (src/server/src/handlers/experiments.ts) -/

/-- getBillingByOrgId (lines 380-393): select where org_id matches,
limit 1, first row or null. -/
def getBillingByOrgId (db : DB) (orgId : String) : Option BillingRow :=
  (db.billing.filter (fun b => b.org_id = orgId)).head?

/-- Result record of checkUsageQuota. -/
structure QuotaResult where
  used : Int
  quota : Int
  percentage : Int
  exceeded : Bool
deriving Repr, DecidableEq

/-- The inner join of runs with projects filtered on the organization and
the created_at lower bound, as issued by checkUsageQuota (lines 439-450).
SQL join semantics: one joined row per matching (run, project) pair. -/
def orgRunsSince (db : DB) (orgId : String) (startOfMonth : Int) : List RunRow :=
  db.runs.flatMap (fun r =>
    (db.projects.filter (fun p =>
      r.project_id = p.id ∧ p.org_id = orgId ∧ startOfMonth ≤ r.created_at)).map
      (fun _ => r))

/-- checkUsageQuota (lines 416-467).  The ambient clock enters through the
two derived values the code computes from it: now (unused after the month
computation) and startOfMonth (the first instant of the current calendar
month).  Math.round on the nonnegative ratio used/quota times 100 is the
half-up integer rounding (2a+b)/(2b) with floor division. -/
def checkUsageQuota (db : DB) (orgId : String) (startOfMonth : Int) : QuotaResult :=
  match getBillingByOrgId db orgId with
  | none => ⟨0, 1000, 0, false⟩
  | some billing =>
      let used := ((orgRunsSince db orgId startOfMonth).map RunRow.tokens_in).sum
      let quota := billing.metered_quota
      let percentage := if 0 < quota then (2 * (used * 100) + quota) / (2 * quota) else 0
      ⟨used, quota, percentage, decide (quota < used)⟩

/-- The static plan table of updateOrganizationPlan (lines 327-340):
seats by plan, with the free-plan default for the switch fall-through. -/
def planSeats (plan : String) : Int :=
  if plan = "pro" then 5 else if plan = "enterprise" then 20 else 1

/-- The static plan table of updateOrganizationPlan: metered quota by
plan, with the free-plan default for the switch fall-through. -/
def planQuota (plan : String) : Int :=
  if plan = "pro" then 10000 else if plan = "enterprise" then 100000 else 1000

/-- Thirty days in milliseconds: the renewal offset of line 342. -/
def thirtyDaysMs : Int := 30 * 24 * 60 * 60 * 1000

/-- updateOrganizationPlan (lines 308-378): validates the organization and
the plan, upserts the billing row keyed by org_id (insert, or update of
every non-key column on conflict), then mirrors the plan onto the
organization row.  Returns the upserted billing row and the new state. -/
def updateOrganizationPlan (db : DB) (orgId plan stripeCustomerId : String) (now : Int) :
    Except String (BillingRow × DB) :=
  if (db.organizations.filter (fun o => o.id = orgId)).head? = none then
    .error "Organization not found"
  else if ¬ (plan = "free" ∨ plan = "pro" ∨ plan = "enterprise") then
    .error "Invalid plan"
  else
    let renewsAt : Option Int := if plan = "free" then none else some (now + thirtyDaysMs)
    let row : BillingRow :=
      ⟨orgId, some stripeCustomerId, plan, planSeats plan, planQuota plan, renewsAt⟩
    let billing1 :=
      if db.billing.any (fun b => b.org_id = orgId) then
        db.billing.map (fun b => if b.org_id = orgId then row else b)
      else db.billing ++ [row]
    let orgs1 := db.organizations.map (fun o =>
      if o.id = orgId then { o with plan := plan } else o)
    .ok (row, { db with billing := billing1, organizations := orgs1 })

/-! ## Pipeline execution (executePipeline, lines 156-240 of the pipeline
handler source) -/

/-- One entry of the nodeResults array. -/
structure NodeResult where
  nodeId : JsVal
  output : JsVal
  duration : Int
deriving Repr, DecidableEq

/-- The record executePipeline resolves with. -/
structure ExecResult where
  success : Bool
  output : JsVal
  executionTime : Int
  nodeResults : List NodeResult
deriving Repr, DecidableEq

/-- Ambient effects of the execution simulation: the per-node rounded
duration (Date.now deltas plus Math.random jitter, line 209/214), the
total execution time (line 219), and the string conversions used to format
node outputs (the template literal on node.type and JSON.stringify on the
input).  None of these influence the control flow. -/
structure ExecOracle where
  nodeDuration : Nat → Int
  execTime : Int
  showType : JsVal → String
  stringify : JsVal → String

/-- The node simulation loop of executePipeline (lines 200-217), including
the property accesses that can throw on malformed graph node entries. -/
def execNodesLoop (oracle : ExecOracle) (input : JsVal) :
    List JsVal → Nat → List NodeResult → Except JsErr (List NodeResult)
  | [], _, acc => .ok acc
  | node :: rest, i, acc => do
      let idv ← node.getField "id"
      let tyv ← node.getField "type"
      let nodeOutput : JsVal := .obj
        [("nodeId", idv), ("type", tyv),
         ("result", .str ("Processed " ++ oracle.showType tyv ++ " with input: " ++
           oracle.stringify input))]
      execNodesLoop oracle input rest (i + 1) (acc ++ [⟨idv, nodeOutput, oracle.nodeDuration i⟩])

/-- The API-key query of executePipeline (lines 166-170): api_keys joined
with organizations on org_id, filtered on the token hash. -/
def apiKeyLookup (db : DB) (orgApiKey : String) : List (ApiKeyRow × OrgRow) :=
  (db.apiKeys.flatMap (fun k =>
    (db.organizations.filter (fun o => k.org_id = o.id)).map (fun o => (k, o)))).filter
    (fun ko => ko.1.token_hash = orgApiKey)

/-- The pipeline query of executePipeline (lines 177-187): pipelines joined
with projects on project_id, filtered on the endpoint slug, the published
status and the resolved organization. -/
def pipelineLookup (db : DB) (slug orgId : String) : List (PipelineRow × ProjectRow) :=
  (db.pipelines.flatMap (fun pl =>
    (db.projects.filter (fun pr => pl.project_id = pr.id)).map (fun pr => (pl, pr)))).filter
    (fun pp => pp.1.endpoint_slug = some slug ∧ pp.1.status = "published" ∧
      pp.2.org_id = orgId)

/-- The body of executePipeline inside its try block (lines 162-230):
resolve the API key to an organization, resolve the slug to a published
pipeline of that organization, then simulate the node processing.
For-of iteration over a truthy non-array nodes value throws unless the
value is a string (strings iterate per character). -/
def executePipelineInner (db : DB) (slug : String) (input : JsVal) (orgApiKey : String)
    (oracle : ExecOracle) : Except JsErr ExecResult := do
  match (apiKeyLookup db orgApiKey).head? with
  | none => .error (.jsError "Invalid API key")
  | some (_, org) =>
    match (pipelineLookup db slug org.id).head? with
    | none => .error (.jsError "Pipeline not found or not published")
    | some (pipeline, _) => do
      let graph := pipeline.graph
      let nodeResults ←
        if graph.truthy && graph.typeofObject then do
          let nodesV ← graph.getField "nodes"
          if nodesV.truthy then
            match nodesV with
            | .arr nodes => execNodesLoop oracle input nodes 0 []
            | .str s =>
                execNodesLoop oracle input (s.toList.map (fun c => .str (String.mk [c]))) 0 []
            | _ => .error (.jsTypeError "value is not iterable")
          else pure []
        else pure []
      let lastOutput : JsVal :=
        match nodeResults.getLast? with
        | some nr => nr.output
        | none => .obj [("message", .str "Pipeline executed successfully")]
      pure
        { success := true
          output := .obj
            [("pipelineId", .str pipeline.id), ("result", lastOutput),
             ("processedNodes", .num nodeResults.length)]
          executionTime := oracle.execTime
          nodeResults := nodeResults }

/-- executePipeline (lines 156-240): the catch clause converts a thrown
error into the failure record with the error message, execution time zero
and no node results. -/
def executePipeline (db : DB) (slug : String) (input : JsVal) (orgApiKey : String)
    (oracle : ExecOracle) : ExecResult :=
  match executePipelineInner db slug input orgApiKey oracle with
  | .ok r => r
  | .error e =>
      let msg := match e with
        | .jsError m => m
        | .jsTypeError m => m
      ⟨false, .obj [("error", .str msg)], 0, []⟩

/-! ## Specification-side definitions

Definitions phrased from the specification text, kept separate from the
code-derived definitions above so the theorems below can compare the
two. -/

/-- The edge relation of the directed graph formed by a list of
(source, target) node-id pairs. -/
def pairRel (prs : List (String × String)) (a b : String) : Prop := (a, b) ∈ prs

/-- Acyclicity of the directed graph formed by the edge pairs: no node
reaches itself through a nonempty directed path. -/
def AcyclicPairs (prs : List (String × String)) : Prop :=
  ∀ s : String, ¬ Relation.TransGen (pairRel prs) s s

/-- A run belongs to the organization when some project row in the list
carries its project id and is owned by the organization. -/
def ownsRun (ps : List ProjectRow) (orgId : String) (r : RunRow) : Prop :=
  ∃ p ∈ ps, r.project_id = p.id ∧ p.org_id = orgId

instance (ps : List ProjectRow) (orgId : String) (r : RunRow) : Decidable (ownsRun ps orgId r) :=
  List.decidableBEx _ ps

/-- Modelled from the spec: the usage sum as the specification words it,
tokens_in over the runs of the organization's projects whose created_at
lies in the window from the first instant of the current month to now. -/
def specUsedInWindow (db : DB) (orgId : String) (startOfMonth now : Int) : Int :=
  ((db.runs.filter (fun r =>
    ownsRun db.projects orgId r ∧ startOfMonth ≤ r.created_at ∧ r.created_at ≤ now)).map
    RunRow.tokens_in).sum

/-- The usage sum the code actually computes, as a specification-style
filter: tokens_in over the runs of the organization's projects with
created_at at or after the first instant of the current month, with no
upper bound. -/
def specUsedSince (db : DB) (orgId : String) (startOfMonth : Int) : Int :=
  ((db.runs.filter (fun r => ownsRun db.projects orgId r ∧ startOfMonth ≤ r.created_at)).map
    RunRow.tokens_in).sum

/-- Half-up integer rounding of the ratio a/b (b positive): the value of
Math.round on the exact ratio, as in the spec formula for percentage. -/
def specRound (a b : Int) : Int := (2 * a + b) / (2 * b)

/-- The static plan table of the spec: seats per plan. -/
def specPlanSeats (plan : String) : Int :=
  if plan = "free" then 1 else if plan = "pro" then 5 else 20

/-- The static plan table of the spec: metered quota per plan. -/
def specPlanQuota (plan : String) : Int :=
  if plan = "free" then 1000 else if plan = "pro" then 10000 else 100000

/-- The successor relation of the adjacency list the dfs explores: y is a
neighbor of x. -/
def EA (adj : JsAdj) (x y : JsVal) : Prop := y ∈ adjSucc adj x

/-- The invariant of the cycle-detection dfs: the recursion stack lies
inside the visited set, the finished nodes (visited, off stack) have all
their successors finished, and no finished node lies on a directed
cycle. -/
def DoneClosed (adj : JsAdj) (v s : List JsVal) : Prop :=
  (∀ x ∈ s, x ∈ v) ∧
  (∀ x, x ∈ v → x ∉ s → ∀ y, EA adj x y → y ∈ v ∧ y ∉ s) ∧
  (∀ x, x ∈ v → x ∉ s → ¬ Relation.TransGen (EA adj) x x)

/-- Number of potential dfs targets not yet visited; the measure that
bounds the recursion depth and justifies the fuel of hasCycle. -/
def remCount (univ visited : List JsVal) : Nat :=
  (univ.filter (fun x => decide (x ∉ visited))).length

/-- The neighbor list the built adjacency assigns to a value: the string
targets of the edge pairs whose source is that string, in edge order. -/
def strTargets (prs : List (String × String)) (x : JsVal) : List JsVal :=
  match x with
  | .str a => (prs.filter (fun p => p.1 = a)).map (fun p => JsVal.str p.2)
  | _ => []

/-- Statement of the dfs soundness at one fuel level: a true result means
a node reachable from r lies on a directed cycle. -/
def DfsSoundAt (adj : JsAdj) (r : JsVal) (fuel : Nat) : Prop :=
  ∀ v s u, List.Chain' (fun a b => EA adj b a) (u :: s) →
    (∀ y ∈ u :: s, Relation.ReflTransGen (EA adj) r y) → s ⊆ v → u ∉ v →
    (dfsVisit adj fuel v s u).1 = true →
    ∃ x, Relation.ReflTransGen (EA adj) r x ∧ Relation.TransGen (EA adj) x x

/-- Statement of the dfs completeness invariant at one fuel level: a false
result grows the visited set, restores the stack, and preserves the
invariant that finished nodes are successor-closed and acyclic. -/
def DfsCompleteAt (adj : JsAdj) (univ : List JsVal) (fuel : Nat) : Prop :=
  ∀ v s u, DoneClosed adj v s → u ∉ v → u ∈ univ → remCount univ v < fuel →
    (dfsVisit adj fuel v s u).1 = false →
    u ∈ (dfsVisit adj fuel v s u).2.1 ∧ v ⊆ (dfsVisit adj fuel v s u).2.1 ∧
    (dfsVisit adj fuel v s u).2.2 = s ∧ DoneClosed adj (dfsVisit adj fuel v s u).2.1 s

/-! ## Concrete fixtures used by closed counterexample and witness
theorems -/

/-- A graph-document node object with a string id and type. -/
def nodeDoc (i t : String) : JsVal := .obj [("id", .str i), ("type", .str t)]

/-- A graph-document edge object with string source and target. -/
def edgeDoc (s t : String) : JsVal := .obj [("source", .str s), ("target", .str t)]

/-- A graph document with the given nodes and edges arrays. -/
def graphDoc (nodes edges : List JsVal) : JsVal :=
  .obj [("nodes", .arr nodes), ("edges", .arr edges)]

/-- A node object whose id is the empty string (a string, but falsy). -/
def emptyIdNode : JsVal := .obj [("id", .str ""), ("type", .str "t")]

/-- Graph document whose single node has the empty-string id. -/
def emptyIdDoc : JsVal := graphDoc [emptyIdNode] []

/-- Graph document with two nodes both carrying the empty-string id. -/
def twoEmptyIdDoc : JsVal := graphDoc [emptyIdNode, emptyIdNode] []

/-- Graph document with a declared node a and a two-edge cycle between the
undeclared ids x and y, unreachable from a. -/
def strandedCycleDoc : JsVal :=
  graphDoc [nodeDoc "a" "t"] [edgeDoc "x" "y", edgeDoc "y" "x"]

/-- Graph document with a declared node a and a cycle a to b to a through
the undeclared id b. -/
def reachableCycleDoc : JsVal :=
  graphDoc [nodeDoc "a" "t"] [edgeDoc "a" "b", edgeDoc "b" "a"]

/-- Graph document whose nodes array contains a null entry: property access
on it throws inside the validator. -/
def nullNodeDoc : JsVal := graphDoc [.null] []

/-- Execution oracle with constant ambient effects. -/
def zeroOracle : ExecOracle := ⟨fun _ => 0, 0, fun _ => "", fun _ => ""⟩

/-- Database fixture: one organization o1 on the free plan with one project
p1 and an API key hashing to tok; a draft pipeline of p1 carries the
endpoint slug s. -/
def draftPipelineDB : DB :=
  { organizations := [⟨"o1", "free"⟩]
    projects := [⟨"p1", "o1"⟩]
    runs := []
    billing := []
    pipelines := [⟨"pl1", "p1", .obj [], "draft", some "s"⟩]
    apiKeys := [⟨"k1", "o1", "tok"⟩] }

/-- Database fixture for the quota window: organization o1 with metered
quota 100 and a single run of 150 input tokens dated after the evaluation
time 100 (created_at 200). -/
def futureRunDB : DB :=
  { organizations := [⟨"o1", "free"⟩]
    projects := [⟨"p1", "o1"⟩]
    runs := [⟨"r1", "p1", 150, 70, 200⟩]
    billing := [⟨"o1", some "cus_1", "free", 1, 100, none⟩]
    pipelines := []
    apiKeys := [] }

/-- Database fixture: organization o1 without a billing row but with a run
of 500 input tokens this month. -/
def noBillingDB : DB :=
  { organizations := [⟨"o1", "free"⟩]
    projects := [⟨"p1", "o1"⟩]
    runs := [⟨"r1", "p1", 500, 10, 50⟩]
    billing := []
    pipelines := []
    apiKeys := [] }

/-- Database fixture: a single organization o1 on the free plan with no
billing row yet. -/
def oneOrgDB : DB :=
  { organizations := [⟨"o1", "free"⟩]
    projects := []
    runs := []
    billing := []
    pipelines := []
    apiKeys := [] }


/-! ## Lemmas and theorems: billing and execution handlers -/

/-- Claim C6: checkUsageQuota for an organization without a billing row
returns the defaults used 0, quota 1000, percentage 0, exceeded false,
regardless of the run records present: the absent billing row
short-circuits the usage aggregation. -/
theorem checkUsageQuota_no_billing_defaults (db : DB) (orgId : String) (som : Int)
    (h : getBillingByOrgId db orgId = none) :
    checkUsageQuota db orgId som = ⟨0, 1000, 0, false⟩ := by
  unfold checkUsageQuota
  rw [h]

/-- Witness for claim C6 at a database that has a current-month run but no
billing row. -/
theorem checkUsageQuota_no_billing_defaults_witness :
    getBillingByOrgId noBillingDB "o1" = none ∧
    checkUsageQuota noBillingDB "o1" 0 = ⟨0, 1000, 0, false⟩ :=
  ⟨by decide, checkUsageQuota_no_billing_defaults noBillingDB "o1" 0 (by decide)⟩

lemma filter_head_map_replace (l : List BillingRow) (orgId : String) (row : BillingRow)
    (hrow : row.org_id = orgId) (hl : l.any (fun b => b.org_id = orgId) = true) :
    ((l.map (fun b => if b.org_id = orgId then row else b)).filter
      (fun b => b.org_id = orgId)).head? = some row := by
  induction l with
  | nil => simp at hl
  | cons b rest ih =>
      by_cases hb : b.org_id = orgId
      · simp [hb, hrow]
      · have hl' : rest.any (fun b => b.org_id = orgId) = true := by
          simpa [hb] using hl
        simpa [hb] using ih hl'

lemma filter_head_append_new (l : List BillingRow) (orgId : String) (row : BillingRow)
    (hrow : row.org_id = orgId) (hl : l.any (fun b => b.org_id = orgId) = false) :
    ((l ++ [row]).filter (fun b => b.org_id = orgId)).head? = some row := by
  have hnil : l.filter (fun b => b.org_id = orgId) = [] := by
    rw [List.filter_eq_nil_iff]
    intro b hb
    have := List.any_eq_false.mp hl b hb
    simpa using this
  rw [List.filter_append, hnil]
  simp [hrow]

/-- Shared characterization of a successful updateOrganizationPlan call:
the returned billing row and how it is found in, and mirrored onto, the
new database state. -/
lemma updateOrganizationPlan_spec (db : DB) (orgId plan cust : String) (now : Int)
    (horg : ∃ o ∈ db.organizations, o.id = orgId)
    (hplan : plan = "free" ∨ plan = "pro" ∨ plan = "enterprise") :
    ∃ db2, updateOrganizationPlan db orgId plan cust now =
      .ok (⟨orgId, some cust, plan, planSeats plan, planQuota plan,
            if plan = "free" then none else some (now + thirtyDaysMs)⟩, db2) ∧
      getBillingByOrgId db2 orgId =
        some ⟨orgId, some cust, plan, planSeats plan, planQuota plan,
              if plan = "free" then none else some (now + thirtyDaysMs)⟩ ∧
      (∀ o ∈ db2.organizations, o.id = orgId → o.plan = plan) := by
  obtain ⟨o0, ho0, ho0id⟩ := horg
  have hfilter : (db.organizations.filter (fun o => o.id = orgId)).head? ≠ none := by
    intro hnone
    rw [List.head?_eq_none_iff, List.filter_eq_nil_iff] at hnone
    exact absurd (by simpa using ho0id) (hnone o0 ho0)
  unfold updateOrganizationPlan
  rw [if_neg hfilter, if_neg (not_not_intro hplan)]
  refine ⟨_, rfl, ?_, ?_⟩
  · set row : BillingRow :=
      ⟨orgId, some cust, plan, planSeats plan, planQuota plan,
        if plan = "free" then none else some (now + thirtyDaysMs)⟩ with hrowdef
    show ((if db.billing.any (fun b => b.org_id = orgId) then
        db.billing.map (fun b => if b.org_id = orgId then row else b)
      else db.billing ++ [row]).filter (fun b => b.org_id = orgId)).head? = some row
    by_cases hany : db.billing.any (fun b => b.org_id = orgId)
    · rw [if_pos hany]
      exact filter_head_map_replace db.billing orgId row rfl hany
    · rw [if_neg hany]
      exact filter_head_append_new db.billing orgId row rfl (by simpa using hany)
  · intro o ho hid
    simp only [List.mem_map] at ho
    obtain ⟨o', ho', rfl⟩ := ho
    by_cases h : o'.id = orgId
    · simp [h]
    · simp only [if_neg h] at hid ⊢
      exact absurd hid h

/-- Claim C3: for an existing organization and a valid plan,
updateOrganizationPlan upserts the billing row keyed by the organization
id with the seats and metered quota of the static plan table and the
given stripe customer id, and mirrors the plan onto the organization
row. -/
theorem updateOrganizationPlan_plan_table (db : DB) (orgId plan cust : String) (now : Int)
    (horg : ∃ o ∈ db.organizations, o.id = orgId)
    (hplan : plan = "free" ∨ plan = "pro" ∨ plan = "enterprise") :
    ∃ row db2, updateOrganizationPlan db orgId plan cust now = .ok (row, db2) ∧
      row.org_id = orgId ∧
      row.seats = specPlanSeats plan ∧
      row.metered_quota = specPlanQuota plan ∧
      row.stripe_customer_id = some cust ∧
      getBillingByOrgId db2 orgId = some row ∧
      (∀ o ∈ db2.organizations, o.id = orgId → o.plan = plan) := by
  obtain ⟨db2, heq, hget, hmirror⟩ := updateOrganizationPlan_spec db orgId plan cust now horg hplan
  refine ⟨_, db2, heq, rfl, ?_, ?_, rfl, hget, hmirror⟩
  · rcases hplan with h | h | h <;> simp [h, planSeats, specPlanSeats]
  · rcases hplan with h | h | h <;> simp [h, planQuota, specPlanQuota]

/-- Witness for claim C3 on a one-organization database moved to the pro
plan. -/
theorem updateOrganizationPlan_plan_table_witness :
    (∃ o ∈ oneOrgDB.organizations, o.id = "o1") ∧
    ∃ row db2, updateOrganizationPlan oneOrgDB "o1" "pro" "cus_9" 1000 = .ok (row, db2) ∧
      row.org_id = "o1" ∧
      row.seats = specPlanSeats "pro" ∧
      row.metered_quota = specPlanQuota "pro" ∧
      row.stripe_customer_id = some "cus_9" ∧
      getBillingByOrgId db2 "o1" = some row ∧
      (∀ o ∈ db2.organizations, o.id = "o1" → o.plan = "pro") :=
  ⟨⟨⟨"o1", "free"⟩, by decide, rfl⟩,
   updateOrganizationPlan_plan_table oneOrgDB "o1" "pro" "cus_9" 1000
     ⟨⟨"o1", "free"⟩, by decide, rfl⟩ (Or.inr (Or.inl rfl))⟩

/-- Claim C10: for an existing organization and a valid plan,
updateOrganizationPlan stores renews_at null for the free plan and now
plus thirty days for the pro and enterprise plans. -/
theorem updateOrganizationPlan_renews_at (db : DB) (orgId plan cust : String) (now : Int)
    (horg : ∃ o ∈ db.organizations, o.id = orgId)
    (hplan : plan = "free" ∨ plan = "pro" ∨ plan = "enterprise") :
    ∃ row db2, updateOrganizationPlan db orgId plan cust now = .ok (row, db2) ∧
      getBillingByOrgId db2 orgId = some row ∧
      (plan = "free" → row.renews_at = none) ∧
      (plan ≠ "free" → row.renews_at = some (now + 30 * 24 * 60 * 60 * 1000)) := by
  obtain ⟨db2, heq, hget, _⟩ := updateOrganizationPlan_spec db orgId plan cust now horg hplan
  refine ⟨_, db2, heq, hget, ?_, ?_⟩
  · intro h
    simp [h]
  · intro h
    simp [h, thirtyDaysMs]

/-- Witness for claim C10: the free plan clears renews_at, shown on a
concrete database (applying the theorem at the free plan). -/
theorem updateOrganizationPlan_renews_at_witness :
    (∃ o ∈ oneOrgDB.organizations, o.id = "o1") ∧
    ∃ row db2, updateOrganizationPlan oneOrgDB "o1" "free" "cus_9" 1000 = .ok (row, db2) ∧
      getBillingByOrgId db2 "o1" = some row ∧
      ("free" = "free" → row.renews_at = none) ∧
      ("free" ≠ "free" → row.renews_at = some (1000 + 30 * 24 * 60 * 60 * 1000)) :=
  ⟨⟨⟨"o1", "free"⟩, by decide, rfl⟩,
   updateOrganizationPlan_renews_at oneOrgDB "o1" "free" "cus_9" 1000
     ⟨⟨"o1", "free"⟩, by decide, rfl⟩ (Or.inl rfl)⟩

lemma run_join_collapse (ps : List ProjectRow) (hnodup : (ps.map ProjectRow.id).Nodup)
    (r : RunRow) (orgId : String) (som : Int) :
    ((ps.filter (fun p => r.project_id = p.id ∧ p.org_id = orgId ∧ som ≤ r.created_at)).map
      (fun _ => r)) =
    if ownsRun ps orgId r ∧ som ≤ r.created_at then [r] else [] := by
  induction ps with
  | nil => simp [ownsRun]
  | cons p rest ih =>
      simp only [List.map_cons, List.nodup_cons] at hnodup
      obtain ⟨hni, hnd⟩ := hnodup
      by_cases hc : r.project_id = p.id ∧ p.org_id = orgId ∧ som ≤ r.created_at
      · have hrest : rest.filter
            (fun p => r.project_id = p.id ∧ p.org_id = orgId ∧ som ≤ r.created_at) = [] := by
          rw [List.filter_eq_nil_iff]
          intro q hq hqc
          simp only [decide_eq_true_eq] at hqc
          have hpq : p.id = q.id := by rw [← hc.1, hqc.1]
          exact hni (hpq ▸ List.mem_map_of_mem ProjectRow.id hq)
        rw [List.filter_cons_of_pos (by simpa using hc), hrest]
        rw [if_pos ⟨⟨p, List.mem_cons_self p rest, hc.1, hc.2.1⟩, hc.2.2⟩]
        rfl
      · rw [List.filter_cons_of_neg (by simpa using hc), ih hnd]
        by_cases ho : ownsRun rest orgId r ∧ som ≤ r.created_at
        · rw [if_pos ho, if_pos ⟨⟨ho.1.choose,
            List.mem_cons_of_mem p ho.1.choose_spec.1, ho.1.choose_spec.2⟩, ho.2⟩]
        · rw [if_neg ho, if_neg ?_]
          rintro ⟨⟨q, hq, hq2⟩, hsom⟩
          rcases List.mem_cons.mp hq with rfl | hq'
          · exact hc ⟨hq2.1, hq2.2, hsom⟩
          · exact ho ⟨⟨q, hq', hq2⟩, hsom⟩

lemma orgRuns_general (rs : List RunRow) (ps : List ProjectRow)
    (hnodup : (ps.map ProjectRow.id).Nodup) (orgId : String) (som : Int) :
    rs.flatMap (fun r =>
      (ps.filter (fun p => r.project_id = p.id ∧ p.org_id = orgId ∧ som ≤ r.created_at)).map
        (fun _ => r)) =
    rs.filter (fun r => ownsRun ps orgId r ∧ som ≤ r.created_at) := by
  induction rs with
  | nil => rfl
  | cons r rest ih =>
      rw [List.flatMap_cons, run_join_collapse ps hnodup r orgId som, List.filter_cons, ih]
      by_cases h : ownsRun ps orgId r ∧ som ≤ r.created_at
      · simp [h]
      · simp [h]

/-- The joined usage query of checkUsageQuota computes exactly the
specification-style filtered sum, provided project ids are unique (their
primary-key constraint). -/
lemma orgRunsSince_eq_filter (db : DB) (orgId : String) (som : Int)
    (hnodup : (db.projects.map ProjectRow.id).Nodup) :
    orgRunsSince db orgId som =
      db.runs.filter (fun r => ownsRun db.projects orgId r ∧ som ≤ r.created_at) :=
  orgRuns_general db.runs db.projects hnodup orgId som

/-- Amended claim C2: for an organization with a billing row, and under the
primary-key uniqueness of project ids, checkUsageQuota returns the sum of
tokens_in (tokens_out excluded) over the runs of the organization's
projects with created_at at or after the first instant of the current
month (the query has no upper time bound), quota equal to the billing
row's metered quota, percentage equal to the half-up rounding of
used / quota * 100 when the quota is positive and 0 otherwise, and
exceeded true iff used strictly exceeds the quota. -/
theorem checkUsageQuota_billing (db : DB) (orgId : String) (som : Int) (b : BillingRow)
    (hb : getBillingByOrgId db orgId = some b)
    (hnodup : (db.projects.map ProjectRow.id).Nodup) :
    checkUsageQuota db orgId som =
      ⟨specUsedSince db orgId som, b.metered_quota,
       if 0 < b.metered_quota then
         specRound (specUsedSince db orgId som * 100) b.metered_quota
       else 0,
       decide (b.metered_quota < specUsedSince db orgId som)⟩ := by
  have hused : ((orgRunsSince db orgId som).map RunRow.tokens_in).sum =
      specUsedSince db orgId som := by
    rw [orgRunsSince_eq_filter db orgId som hnodup]
    rfl
  unfold checkUsageQuota
  rw [hb]
  simp only [hused, specRound]

/-- Witness for the amended claim C2 at a concrete database. -/
theorem checkUsageQuota_billing_witness :
    getBillingByOrgId futureRunDB "o1" = some ⟨"o1", some "cus_1", "free", 1, 100, none⟩ ∧
    (futureRunDB.projects.map ProjectRow.id).Nodup ∧
    checkUsageQuota futureRunDB "o1" 0 =
      ⟨specUsedSince futureRunDB "o1" 0, 100,
       if (0 : Int) < 100 then specRound (specUsedSince futureRunDB "o1" 0 * 100) 100 else 0,
       decide ((100 : Int) < specUsedSince futureRunDB "o1" 0)⟩ :=
  ⟨by decide, by decide,
   checkUsageQuota_billing futureRunDB "o1" 0 ⟨"o1", some "cus_1", "free", 1, 100, none⟩
     (by decide) (by decide)⟩

/-- Counterexample to claim C2 as stated: the usage query has no upper
time bound, so a run dated after the evaluation time (created_at 200,
with the month starting at 0 and now being 100) is counted; the sum over
the claimed window from the start of the month to now is 0, yet the
returned used value is 150 (and with quota 100 the call reports
percentage 150 and exceeded). -/
theorem checkUsageQuota_counts_future_runs :
    checkUsageQuota futureRunDB "o1" 0 = ⟨150, 100, 150, true⟩ ∧
    specUsedInWindow futureRunDB "o1" 0 100 = 0 := by
  constructor
  · decide
  · decide

lemma pipelineLookup_eq_nil (db : DB) (slug orgId : String)
    (h : ∀ pl ∈ db.pipelines, ∀ pr ∈ db.projects, pl.project_id = pr.id →
      pl.endpoint_slug = some slug → pl.status = "published" → pr.org_id ≠ orgId) :
    pipelineLookup db slug orgId = [] := by
  unfold pipelineLookup
  rw [List.filter_eq_nil_iff]
  rintro ⟨pl, pr⟩ hmem hcond
  simp only [decide_eq_true_eq] at hcond
  rw [List.mem_flatMap] at hmem
  obtain ⟨pl', hpl', hmem2⟩ := hmem
  rw [List.mem_map] at hmem2
  obtain ⟨pr', hpr', heq⟩ := hmem2
  rw [List.mem_filter] at hpr'
  obtain ⟨hpr'mem, hpr'id⟩ := hpr'
  simp only [decide_eq_true_eq] at hpr'id
  have hpl : pl' = pl := congrArg Prod.fst heq
  have hpr : pr' = pr := congrArg Prod.snd heq
  subst hpl hpr
  exact h pl' hpl' pr' hpr'mem hpr'id hcond.1 hcond.2.1 hcond.2.2

/-- Amended claim C4: with an API key that resolves to an organization but
no published pipeline of that organization carrying the slug (covering the
draft, missing and cross-tenant cases alike), executePipeline does not
raise and returns success false, an output whose error field is the string
"Pipeline not found or not published", executionTime 0 and an empty
nodeResults list. -/
theorem executePipeline_not_found (db : DB) (slug : String) (input : JsVal) (key : String)
    (oracle : ExecOracle) (ko : ApiKeyRow × OrgRow)
    (hkey : (apiKeyLookup db key).head? = some ko)
    (hpipe : ∀ pl ∈ db.pipelines, ∀ pr ∈ db.projects, pl.project_id = pr.id →
      pl.endpoint_slug = some slug → pl.status = "published" → pr.org_id ≠ ko.2.id) :
    executePipeline db slug input key oracle =
      ⟨false, .obj [("error", .str "Pipeline not found or not published")], 0, []⟩ := by
  obtain ⟨k, org⟩ := ko
  have hnil : pipelineLookup db slug org.id = [] := pipelineLookup_eq_nil db slug org.id hpipe
  unfold executePipeline executePipelineInner
  rw [hkey]
  simp [hnil]

/-- Counterexample to claim C4 as stated: with a valid key and a draft
pipeline carrying the requested slug, the failure output error field holds
the string "Pipeline not found or not published", not the exact string
"pipeline not found" the claim asserts. -/
theorem executePipeline_draft_message :
    executePipeline draftPipelineDB "s" (.obj []) "tok" zeroOracle =
      ⟨false, .obj [("error", .str "Pipeline not found or not published")], 0, []⟩ ∧
    (executePipeline draftPipelineDB "s" (.obj []) "tok" zeroOracle).output ≠
      .obj [("error", .str "pipeline not found")] := by
  constructor
  · decide
  · decide

/-- Witness for the amended claim C4 at a concrete database, requesting a
slug no pipeline carries. -/
theorem executePipeline_not_found_witness :
    (apiKeyLookup draftPipelineDB "tok").head? = some (⟨"k1", "o1", "tok"⟩, ⟨"o1", "free"⟩) ∧
    executePipeline draftPipelineDB "s2" (.obj []) "tok" zeroOracle =
      ⟨false, .obj [("error", .str "Pipeline not found or not published")], 0, []⟩ :=
  ⟨by decide, executePipeline_not_found draftPipelineDB "s2" (.obj []) "tok" zeroOracle
    (⟨"k1", "o1", "tok"⟩, ⟨"o1", "free"⟩) (by decide) (by decide)⟩

/-- Claim C5: validatePipelineGraph never raises; the validation body's
normal result is returned as is, and any exception thrown inside it is
converted by the catch clause into valid false with the single generic
entry "Validation failed due to internal error". -/
theorem validatePipelineGraph_never_raises (g : JsVal) :
    (∀ r, validateInner g = .ok r → validatePipelineGraph g = r) ∧
    (∀ e, validateInner g = .error e →
      validatePipelineGraph g = ⟨false, ["Validation failed due to internal error"]⟩) := by
  constructor
  · intro r h
    unfold validatePipelineGraph
    rw [h]
  · intro e h
    unfold validatePipelineGraph
    rw [h]

/-- Witness for claim C5: a normal input passes through, and a nodes array
containing null makes the body throw a TypeError, which the function
converts to the generic internal error. -/
theorem validatePipelineGraph_never_raises_witness :
    validateInner (.num 3) = .ok ⟨false, ["Graph must be a valid object"]⟩ ∧
    validatePipelineGraph (.num 3) = ⟨false, ["Graph must be a valid object"]⟩ ∧
    validateInner nullNodeDoc =
      .error (.jsTypeError "Cannot read properties of null (reading 'id')") ∧
    validatePipelineGraph nullNodeDoc =
      ⟨false, ["Validation failed due to internal error"]⟩ :=
  ⟨by decide, (validatePipelineGraph_never_raises (.num 3)).1 _ (by decide),
   by decide, (validatePipelineGraph_never_raises nullNodeDoc).2
     (.jsTypeError "Cannot read properties of null (reading 'id')") (by decide)⟩

/-- Claim C8: the validator tests id, type, source and target by
truthiness, so the empty string, though a string, is treated as missing:
an empty id yields the missing-id error and skips the node's remaining
checks (no id registration, no type check), an empty type on a well-formed
id yields the missing-type error, and an empty source or target yields the
corresponding edge error with the remaining edge checks skipped. -/
theorem validator_truthiness_empty_strings :
    (∀ errs nids (ty : JsVal),
      nodeStep (errs, nids) (.obj [("id", .str ""), ("type", ty)]) =
        .ok (errs ++ ["Each node must have a string id"], nids)) ∧
    (∀ errs nids s, s ≠ "" → s ∉ nids →
      nodeStep (errs, nids) (.obj [("id", .str s), ("type", .str "")]) =
        .ok (errs ++ ["Node " ++ s ++ " must have a string type"], setAdd nids s)) ∧
    (∀ errs nids (tgt : JsVal),
      edgeStep nids errs (.obj [("source", .str ""), ("target", tgt)]) =
        .ok (errs ++ ["Each edge must have a string source"])) ∧
    (∀ errs nids s, s ≠ "" →
      edgeStep nids errs (.obj [("source", .str s), ("target", .str "")]) =
        .ok (errs ++ ["Each edge must have a string target"])) := by
  refine ⟨?_, ?_, ?_, ?_⟩
  · intro errs nids ty
    simp [nodeStep, JsVal.getField, Bind.bind, Except.bind, Pure.pure, Except.pure,
      List.lookup]
  · intro errs nids s hs hmem
    simp [nodeStep, JsVal.getField, Bind.bind, Except.bind, Pure.pure, Except.pure,
      List.lookup, hs, hmem]
  · intro errs nids tgt
    simp [edgeStep, JsVal.getField, Bind.bind, Except.bind, Pure.pure, Except.pure,
      List.lookup]
  · intro errs nids s hs
    simp [edgeStep, JsVal.getField, Bind.bind, Except.bind, Pure.pure, Except.pure,
      List.lookup, hs]

/-- Witness for claim C8 at concrete states and nodes. -/
theorem validator_truthiness_empty_strings_witness :
    nodeStep ([], []) (.obj [("id", .str ""), ("type", .num 5)]) =
      .ok (["Each node must have a string id"], []) ∧
    ("a" ≠ "" ∧ "a" ∉ ([] : List String)) ∧
    nodeStep ([], []) (.obj [("id", .str "a"), ("type", .str "")]) =
      .ok (["Node " ++ "a" ++ " must have a string type"], setAdd [] "a") ∧
    edgeStep [] [] (.obj [("source", .str ""), ("target", .num 5)]) =
      .ok (["Each edge must have a string source"]) ∧
    edgeStep [] [] (.obj [("source", .str "a"), ("target", .str "")]) =
      .ok (["Each edge must have a string target"]) :=
  ⟨validator_truthiness_empty_strings.1 [] [] (.num 5),
   ⟨by decide, by decide⟩,
   validator_truthiness_empty_strings.2.1 [] [] "a" (by decide) (by decide),
   validator_truthiness_empty_strings.2.2.1 [] [] (.num 5),
   validator_truthiness_empty_strings.2.2.2 [] [] "a" (by decide)⟩

lemma head_char_ne {s t : String} (h : s.data.head? ≠ t.data.head?) : s ≠ t :=
  fun he => h (by rw [he])

lemma dupMsg_inj {a b : String}
    (h : "Duplicate node id: " ++ a = "Duplicate node id: " ++ b) : a = b := by
  have h2 := congrArg String.data h
  simp only [String.data_append] at h2
  exact String.ext (List.append_cancel_left h2)

lemma dupMsg_head (a : String) : ("Duplicate node id: " ++ a).data.head? = some 'D' := by
  simp only [String.data_append]
  rw [List.head?_append_of_ne_nil]
  · decide
  · decide

lemma typeMsg_head (s : String) :
    ("Node " ++ s ++ " must have a string type").data.head? = some 'N' := by
  simp only [String.data_append]
  rw [List.head?_append_of_ne_nil, List.head?_append_of_ne_nil]
  · decide
  · decide
  · intro hnil
    exact absurd (List.append_eq_nil.mp hnil).1 (by decide)

lemma srcRefMsg_head (s : String) :
    ("Edge references non-existent source node: " ++ s).data.head? = some 'E' := by
  simp only [String.data_append]
  rw [List.head?_append_of_ne_nil]
  · decide
  · decide

lemma tgtRefMsg_head (s : String) :
    ("Edge references non-existent target node: " ++ s).data.head? = some 'E' := by
  simp only [String.data_append]
  rw [List.head?_append_of_ne_nil]
  · decide
  · decide

lemma getField_ok_any (nd : JsVal) (f g : String) (v : JsVal)
    (h : nd.getField f = .ok v) : ∃ w, nd.getField g = .ok w := by
  cases nd
  case null => simp [JsVal.getField] at h
  case undefined => simp [JsVal.getField] at h
  all_goals exact ⟨_, rfl⟩

/-- One step of the nodes loop on a node whose id field holds the string i:
an empty id yields only the missing-id error; a nonempty id registers the
id, reports a duplicate when already registered, and possibly adds the
missing-type message. -/
lemma nodeStep_char (nd : JsVal) (i : String) (hnd : nd.getField "id" = .ok (.str i))
    (errs nids : List String) :
    (i = "" → nodeStep (errs, nids) nd = .ok (errs ++ ["Each node must have a string id"], nids)) ∧
    (i ≠ "" → ∃ tail, nodeStep (errs, nids) nd =
      .ok ((if i ∈ nids then errs ++ ["Duplicate node id: " ++ i] else errs) ++ tail,
        setAdd nids i) ∧
      (tail = [] ∨ tail = ["Node " ++ i ++ " must have a string type"])) := by
  obtain ⟨w, hw⟩ := getField_ok_any nd "id" "type" (.str i) hnd
  constructor
  · intro hi
    subst hi
    simp [nodeStep, hnd, Bind.bind, Except.bind, Pure.pure, Except.pure]
  · intro hi
    cases w
    case str t =>
      by_cases ht : t = ""
      · subst ht
        refine ⟨["Node " ++ i ++ " must have a string type"], ?_, Or.inr rfl⟩
        simp [nodeStep, hnd, hw, hi, Bind.bind, Except.bind, Pure.pure, Except.pure]
      · refine ⟨[], ?_, Or.inl rfl⟩
        simp [nodeStep, hnd, hw, hi, ht, Bind.bind, Except.bind, Pure.pure, Except.pure]
    all_goals
      refine ⟨["Node " ++ i ++ " must have a string type"], ?_, Or.inr rfl⟩
    all_goals
      simp [nodeStep, hnd, hw, hi, Bind.bind, Except.bind, Pure.pure, Except.pure]

/-- Counting lemma for the nodes loop: the number of duplicate-id messages
for a fixed nonempty id X grows by the number of X occurrences when X was
already registered, and by one less when it was not. -/
lemma nodesLoop_dup_count (X : String) (hX : X ≠ "") :
    ∀ (nodes : List JsVal) (ids : List String),
      List.Forall₂ (fun nd i => nd.getField "id" = Except.ok (.str i)) nodes ids →
      ∀ errs nids, ∃ errs2 nids2,
        nodesLoop nodes (errs, nids) = .ok (errs2, nids2) ∧
        errs2.count ("Duplicate node id: " ++ X) =
          errs.count ("Duplicate node id: " ++ X) +
            (if X ∈ nids then ids.count X else ids.count X - 1) := by
  intro nodes ids hids
  induction hids with
  | nil =>
      intro errs nids
      refine ⟨errs, nids, rfl, ?_⟩
      simp
  | cons hnd hrest ih =>
      rename_i nd i rest restIds
      intro errs nids
      by_cases hi : i = ""
      · subst hi
        obtain ⟨errs2, nids2, hloop, hcount⟩ := ih (errs ++ ["Each node must have a string id"]) nids
        refine ⟨errs2, nids2, ?_, ?_⟩
        · simp only [nodesLoop, Bind.bind, Except.bind, (nodeStep_char nd "" hnd errs nids).1 rfl]
          exact hloop
        · rw [hcount]
          have hne : ("Duplicate node id: " ++ X) ≠ "Each node must have a string id" := by
            apply head_char_ne
            rw [dupMsg_head]
            decide
          have hXne : ¬ (("" : String) == X) := by
            simp only [beq_iff_eq]
            exact fun h => hX h.symm
          simp [List.count_append, List.count_cons, List.count_singleton, hne, hXne,
            Ne.symm hne]
      · obtain ⟨tail, hstep, htail⟩ := (nodeStep_char nd i hnd errs nids).2 hi
        set errs1 := (if i ∈ nids then errs ++ ["Duplicate node id: " ++ i] else errs) ++ tail
          with herrs1
        obtain ⟨errs2, nids2, hloop, hcount⟩ := ih errs1 (setAdd nids i)
        refine ⟨errs2, nids2, ?_, ?_⟩
        · simp only [nodesLoop, Bind.bind, Except.bind, hstep]
          exact hloop
        · rw [hcount]
          have htailcount : tail.count ("Duplicate node id: " ++ X) = 0 := by
            rcases htail with rfl | rfl
            · rfl
            · rw [List.count_eq_zero]
              intro hmem
              rw [List.mem_singleton] at hmem
              have := typeMsg_head i
              rw [← hmem, dupMsg_head] at this
              exact absurd this (by decide)
          by_cases hiX : i = X
          · subst hiX
            have hmemAdd : i ∈ setAdd nids i := by
              by_cases h : i ∈ nids <;> simp [setAdd, h]
            rw [if_pos hmemAdd]
            have hcons : (i :: restIds).count i = restIds.count i + 1 := by
              simp [List.count_cons]
            by_cases hmem : i ∈ nids
            · rw [if_pos hmem, hcons, herrs1, if_pos hmem]
              simp [List.count_append, List.count_cons, htailcount]
              omega
            · rw [if_neg hmem, hcons, herrs1, if_neg hmem]
              simp [List.count_append, htailcount]
          · have hcountcons : (i :: restIds).count X = restIds.count X := by
              simp [List.count_cons, hiX]
            have hmemAdd : (X ∈ setAdd nids i) ↔ X ∈ nids := by
              simp [setAdd]
              by_cases h : i ∈ nids
              · simp [h]
              · simp [h, Ne.symm hiX]
            have hdupne : ("Duplicate node id: " ++ i) ≠ ("Duplicate node id: " ++ X) := by
              intro h
              exact hiX (dupMsg_inj h)
            rw [hcountcons, herrs1]
            by_cases hmem : i ∈ nids
            · rw [if_pos hmem]
              simp [List.count_append, List.count_cons, htailcount, hmemAdd, hdupne]
            · rw [if_neg hmem]
              simp [List.count_append, List.count_cons, htailcount, hmemAdd]

lemma getField_ok_of_ne (v : JsVal) (f : String) (h1 : v ≠ .null) (h2 : v ≠ .undefined) :
    ∃ w, v.getField f = .ok w := by
  cases v
  case null => exact absurd rfl h1
  case undefined => exact absurd rfl h2
  all_goals exact ⟨_, rfl⟩

/-- One step of the edges loop on a non-null edge value: the accumulated
errors are extended by messages that all begin with the letter E. -/
lemma edgeStep_shape (nodeIds errs : List String) (ed : JsVal)
    (hed : ed ≠ .null ∧ ed ≠ .undefined) :
    ∃ tail, edgeStep nodeIds errs ed = .ok (errs ++ tail) ∧
      ∀ m ∈ tail, m.data.head? = some 'E' := by
  have hsrcE : ∀ m ∈ ["Each edge must have a string source"], m.data.head? = some 'E' := by
    intro m hm
    rw [List.mem_singleton] at hm
    subst hm
    decide
  have htgtE : ∀ m ∈ ["Each edge must have a string target"], m.data.head? = some 'E' := by
    intro m hm
    rw [List.mem_singleton] at hm
    subst hm
    decide
  obtain ⟨sv, hsv⟩ := getField_ok_of_ne ed "source" hed.1 hed.2
  have hmain : sv ≠ .str "" → ∀ s, sv = .str s →
      ∃ tail, edgeStep nodeIds errs ed = .ok (errs ++ tail) ∧
        ∀ m ∈ tail, m.data.head? = some 'E' := by
    intro hne s hsvs
    subst hsvs
    have hs : s ≠ "" := fun h => hne (by rw [h])
    obtain ⟨tv, htv⟩ := getField_ok_of_ne ed "target" hed.1 hed.2
    have htmain : ∀ t, tv = .str t → t ≠ "" →
        ∃ tail, edgeStep nodeIds errs ed = .ok (errs ++ tail) ∧
          ∀ m ∈ tail, m.data.head? = some 'E' := by
      intro t htvt ht
      subst htvt
      refine ⟨(if s ∈ nodeIds then [] else ["Edge references non-existent source node: " ++ s])
        ++ (if t ∈ nodeIds then [] else ["Edge references non-existent target node: " ++ t]),
        ?_, ?_⟩
      · simp only [edgeStep, hsv, htv, Bind.bind, Except.bind, Pure.pure, Except.pure,
          if_neg hs, if_neg ht]
        by_cases h1 : s ∈ nodeIds <;> by_cases h2 : t ∈ nodeIds <;>
          simp [h1, h2, List.append_assoc]
      · intro m hm
        rw [List.mem_append] at hm
        rcases hm with hm | hm
        · by_cases h1 : s ∈ nodeIds
          · simp [h1] at hm
          · simp [h1] at hm
            rw [hm, srcRefMsg_head]
        · by_cases h2 : t ∈ nodeIds
          · simp [h2] at hm
          · simp [h2] at hm
            rw [hm, tgtRefMsg_head]
    cases tv with
    | str t =>
        by_cases ht : t = ""
        · subst ht
          refine ⟨["Each edge must have a string target"], ?_, htgtE⟩
          simp [edgeStep, hsv, htv, hs, Bind.bind, Except.bind, Pure.pure, Except.pure]
        · exact htmain t rfl ht
    | null =>
        refine ⟨["Each edge must have a string target"], ?_, htgtE⟩
        simp [edgeStep, hsv, htv, hs, Bind.bind, Except.bind, Pure.pure, Except.pure]
    | undefined =>
        refine ⟨["Each edge must have a string target"], ?_, htgtE⟩
        simp [edgeStep, hsv, htv, hs, Bind.bind, Except.bind, Pure.pure, Except.pure]
    | bool b =>
        refine ⟨["Each edge must have a string target"], ?_, htgtE⟩
        simp [edgeStep, hsv, htv, hs, Bind.bind, Except.bind, Pure.pure, Except.pure]
    | num n =>
        refine ⟨["Each edge must have a string target"], ?_, htgtE⟩
        simp [edgeStep, hsv, htv, hs, Bind.bind, Except.bind, Pure.pure, Except.pure]
    | arr l =>
        refine ⟨["Each edge must have a string target"], ?_, htgtE⟩
        simp [edgeStep, hsv, htv, hs, Bind.bind, Except.bind, Pure.pure, Except.pure]
    | obj fs =>
        refine ⟨["Each edge must have a string target"], ?_, htgtE⟩
        simp [edgeStep, hsv, htv, hs, Bind.bind, Except.bind, Pure.pure, Except.pure]
  cases sv with
  | str s =>
      by_cases hs : s = ""
      · subst hs
        refine ⟨["Each edge must have a string source"], ?_, hsrcE⟩
        simp [edgeStep, hsv, Bind.bind, Except.bind, Pure.pure, Except.pure]
      · exact hmain (fun h => hs (by injection h)) s rfl
  | null =>
      refine ⟨["Each edge must have a string source"], ?_, hsrcE⟩
      simp [edgeStep, hsv, Bind.bind, Except.bind, Pure.pure, Except.pure]
  | undefined =>
      refine ⟨["Each edge must have a string source"], ?_, hsrcE⟩
      simp [edgeStep, hsv, Bind.bind, Except.bind, Pure.pure, Except.pure]
  | bool b =>
      refine ⟨["Each edge must have a string source"], ?_, hsrcE⟩
      simp [edgeStep, hsv, Bind.bind, Except.bind, Pure.pure, Except.pure]
  | num n =>
      refine ⟨["Each edge must have a string source"], ?_, hsrcE⟩
      simp [edgeStep, hsv, Bind.bind, Except.bind, Pure.pure, Except.pure]
  | arr l =>
      refine ⟨["Each edge must have a string source"], ?_, hsrcE⟩
      simp [edgeStep, hsv, Bind.bind, Except.bind, Pure.pure, Except.pure]
  | obj fs =>
      refine ⟨["Each edge must have a string source"], ?_, hsrcE⟩
      simp [edgeStep, hsv, Bind.bind, Except.bind, Pure.pure, Except.pure]

/-- The edges loop only appends messages (each beginning with E) to the
error list and never throws on non-null edge values. -/
lemma edgesLoop_extend (nodeIds : List String) :
    ∀ (edges : List JsVal) (errs : List String),
      (∀ ed ∈ edges, ed ≠ .null ∧ ed ≠ .undefined) →
      ∃ tail, edgesLoop nodeIds edges errs = .ok (errs ++ tail) ∧
        ∀ m ∈ tail, m.data.head? = some 'E' := by
  intro edges
  induction edges with
  | nil =>
      intro errs _
      exact ⟨[], by simp [edgesLoop], by simp⟩
  | cons ed rest ih =>
      intro errs h
      obtain ⟨t1, hstep, ht1⟩ := edgeStep_shape nodeIds errs ed (h ed (List.mem_cons_self ed rest))
      obtain ⟨t2, hloop, ht2⟩ := ih (errs ++ t1) (fun e he => h e (List.mem_cons_of_mem ed he))
      refine ⟨t1 ++ t2, ?_, ?_⟩
      · simp only [edgesLoop, Bind.bind, Except.bind, hstep]
        rw [hloop, List.append_assoc]
      · intro m hm
        rcases List.mem_append.mp hm with h1 | h2
        exacts [ht1 m h1, ht2 m h2]

lemma adjAddNodes_ok :
    ∀ (nodes : List JsVal) (ids : List String),
      List.Forall₂ (fun nd i => nd.getField "id" = Except.ok (.str i)) nodes ids →
      ∀ m, ∃ m2, adjAddNodes nodes m = .ok m2 := by
  intro nodes ids hids
  induction hids with
  | nil => exact fun m => ⟨m, rfl⟩
  | cons hnd hrest ih =>
      rename_i nd i rest restIds
      intro m
      obtain ⟨m2, h2⟩ := ih (adjSet m (.str i) [])
      exact ⟨m2, by simp only [adjAddNodes, Bind.bind, Except.bind, hnd]; exact h2⟩

lemma adjAddEdges_ok :
    ∀ (edges : List JsVal), (∀ ed ∈ edges, ed ≠ .null ∧ ed ≠ .undefined) →
      ∀ m, ∃ m2, adjAddEdges edges m = .ok m2 := by
  intro edges
  induction edges with
  | nil => exact fun _ m => ⟨m, rfl⟩
  | cons ed rest ih =>
      intro h m
      obtain ⟨sv, hsv⟩ := getField_ok_of_ne ed "source" (h ed (List.mem_cons_self ed rest)).1
        (h ed (List.mem_cons_self ed rest)).2
      obtain ⟨tv, htv⟩ := getField_ok_of_ne ed "target" (h ed (List.mem_cons_self ed rest)).1
        (h ed (List.mem_cons_self ed rest)).2
      obtain ⟨m2, h2⟩ := ih (fun e he => h e (List.mem_cons_of_mem ed he))
        (adjSet m sv (adjSucc m sv ++ [tv]))
      exact ⟨m2, by simp only [adjAddEdges, Bind.bind, Except.bind, hsv, htv]; exact h2⟩

lemma hasCycleLoop_ok (adj : JsAdj) (fuel : Nat) :
    ∀ (nodes : List JsVal) (ids : List String),
      List.Forall₂ (fun nd i => nd.getField "id" = Except.ok (.str i)) nodes ids →
      ∀ visited stack, ∃ b, hasCycleLoop adj fuel nodes visited stack = .ok b := by
  intro nodes ids hids
  induction hids with
  | nil => exact fun visited stack => ⟨false, rfl⟩
  | cons hnd hrest ih =>
      rename_i nd i rest restIds
      intro visited stack
      by_cases hv : (JsVal.str i) ∈ visited
      · obtain ⟨b, hb⟩ := ih visited stack
        refine ⟨b, ?_⟩
        simp only [hasCycleLoop, Bind.bind, Except.bind, hnd, if_pos hv]
        exact hb
      · by_cases hr : (dfsVisit adj fuel visited stack (.str i)).1
        · refine ⟨true, ?_⟩
          simp only [hasCycleLoop, Bind.bind, Except.bind, hnd, if_neg hv, if_pos hr]
        · obtain ⟨b, hb⟩ := ih (dfsVisit adj fuel visited stack (.str i)).2.1
            (dfsVisit adj fuel visited stack (.str i)).2.2
          refine ⟨b, ?_⟩
          simp only [hasCycleLoop, Bind.bind, Except.bind, hnd, if_neg hv, if_neg hr]
          exact hb

lemma hasCycle_ok (nodes edges : List JsVal) (ids : List String)
    (hids : List.Forall₂ (fun nd i => nd.getField "id" = Except.ok (.str i)) nodes ids)
    (hedges : ∀ ed ∈ edges, ed ≠ .null ∧ ed ≠ .undefined) :
    ∃ b, hasCycle nodes edges = .ok b := by
  obtain ⟨m0, h0⟩ := adjAddNodes_ok nodes ids hids []
  obtain ⟨m1, h1⟩ := adjAddEdges_ok edges hedges m0
  obtain ⟨b, hb⟩ := hasCycleLoop_ok m1 (nodes.length + edges.length + 1) nodes ids hids [] []
  exact ⟨b, by simp only [hasCycle, Bind.bind, Except.bind, h0, h1]; exact hb⟩

lemma getField_arr_obj (g : JsVal) (f : String) (v : List JsVal)
    (h : g.getField f = .ok (.arr v)) : ∃ fields, g = .obj fields := by
  cases g with
  | obj fields => exact ⟨fields, rfl⟩
  | null => simp [JsVal.getField] at h
  | undefined => simp [JsVal.getField] at h
  | bool b => simp [JsVal.getField] at h
  | num n => simp [JsVal.getField] at h
  | str s => simp [JsVal.getField] at h
  | arr l => simp [JsVal.getField] at h

/-- The main path of the validation body: with nodes and edges arrays
present, the result assembles the node errors, the edge errors and the
cycle flag. -/
lemma validateInner_main (fields : List (String × JsVal)) (nodes edges : List JsVal)
    (hn : (JsVal.obj fields).getField "nodes" = .ok (.arr nodes))
    (he : (JsVal.obj fields).getField "edges" = .ok (.arr edges))
    (errsN nids : List String) (hnl : nodesLoop nodes ([], []) = .ok (errsN, nids))
    (errsE : List String) (hel : edgesLoop nids edges errsN = .ok errsE)
    (b : Bool) (hc : hasCycle nodes edges = .ok b) :
    validateInner (.obj fields) = .ok
      ⟨(if b then errsE ++ ["Pipeline graph contains cycles"] else errsE).isEmpty,
       if b then errsE ++ ["Pipeline graph contains cycles"] else errsE⟩ := by
  unfold validateInner
  rw [hn]
  simp only [JsVal.truthy, JsVal.typeofObject, Bind.bind, Except.bind, Pure.pure, Except.pure]
  rw [he]
  simp only [hnl, hel, hc, Bind.bind, Except.bind, Pure.pure, Except.pure]
  simp

/-- Amended claim C7: for a graph document carrying nodes and edges arrays
whose node id fields hold strings and whose edge entries are not null or
undefined, if a nonempty id X occurs k times (k at least 2) among the node
id strings, the errors list contains exactly k minus 1 entries equal to
"Duplicate node id: X", one per repeated occurrence beyond the first.  (As
stated the claim also covered the empty-string id, which the truthiness
check diverts to the missing-id error instead.) -/
theorem duplicate_id_error_count (g : JsVal) (nodes edges : List JsVal) (ids : List String)
    (hn : g.getField "nodes" = .ok (.arr nodes))
    (he : g.getField "edges" = .ok (.arr edges))
    (hids : List.Forall₂ (fun nd i => nd.getField "id" = Except.ok (.str i)) nodes ids)
    (hedges : ∀ ed ∈ edges, ed ≠ .null ∧ ed ≠ .undefined)
    (X : String) (hX : X ≠ "") (hk : 2 ≤ ids.count X) :
    (validatePipelineGraph g).errors.count ("Duplicate node id: " ++ X) = ids.count X - 1 := by
  obtain ⟨fields, rfl⟩ := getField_arr_obj g "nodes" nodes hn
  obtain ⟨errsN, nids, hnl, hcount⟩ := nodesLoop_dup_count X hX nodes ids hids [] []
  obtain ⟨tail, hel, htail⟩ := edgesLoop_extend nids edges errsN hedges
  obtain ⟨b, hc⟩ := hasCycle_ok nodes edges ids hids hedges
  have hmain := validateInner_main fields nodes edges hn he errsN nids hnl (errsN ++ tail) hel b hc
  unfold validatePipelineGraph
  rw [hmain]
  have hN : errsN.count ("Duplicate node id: " ++ X) = ids.count X - 1 := by
    rw [hcount]
    simp
  have htail0 : tail.count ("Duplicate node id: " ++ X) = 0 := by
    rw [List.count_eq_zero]
    intro hmem
    have hE := htail _ hmem
    rw [dupMsg_head] at hE
    exact absurd hE (by decide)
  have hcycne : ("Pipeline graph contains cycles" : String) ≠ "Duplicate node id: " ++ X := by
    apply head_char_ne
    rw [dupMsg_head]
    decide
  cases b
  · rw [if_neg (by decide : ¬ (false = true)), List.count_append, hN, htail0]
    omega
  · rw [if_pos rfl, List.count_append, List.count_append, hN, htail0]
    have hc0 : List.count ("Duplicate node id: " ++ X) ["Pipeline graph contains cycles"] = 0 := by
      rw [List.count_eq_zero]
      simp [Ne.symm hcycne]
    rw [hc0]
    omega

/-- Counterexample to claim C7 as stated: the empty string is a string id
occurring twice (k equal to 2), yet no "Duplicate node id: " entry appears
at all; the truthiness test diverts both occurrences to the missing-id
error, so the k minus 1 count of the claim fails for the empty id. -/
theorem duplicate_empty_id_not_counted :
    List.Forall₂ (fun nd i => nd.getField "id" = Except.ok (.str i))
      [emptyIdNode, emptyIdNode] ["", ""] ∧
    (["", ""] : List String).count "" = 2 ∧
    validatePipelineGraph twoEmptyIdDoc =
      ⟨false, ["Each node must have a string id", "Each node must have a string id"]⟩ ∧
    (validatePipelineGraph twoEmptyIdDoc).errors.count ("Duplicate node id: " ++ "") = 0 := by
  refine ⟨?_, by decide, by decide, by decide⟩
  exact List.Forall₂.cons (by decide) (List.Forall₂.cons (by decide) List.Forall₂.nil)

/-- Witness for the amended claim C7 on a concrete document with the id a
declared twice. -/
theorem duplicate_id_error_count_witness :
    (validatePipelineGraph (graphDoc [nodeDoc "a" "t", nodeDoc "a" "t"] [])).errors.count
      ("Duplicate node id: " ++ "a") = (["a", "a"] : List String).count "a" - 1 :=
  duplicate_id_error_count (graphDoc [nodeDoc "a" "t", nodeDoc "a" "t"] [])
    [nodeDoc "a" "t", nodeDoc "a" "t"] [] ["a", "a"] (by decide) (by decide)
    (List.Forall₂.cons (by decide) (List.Forall₂.cons (by decide) List.Forall₂.nil))
    (by intro ed hed; simp at hed) "a" (by decide) (by decide)

/-! ## Correctness of the cycle-detection dfs -/

lemma adjGet_set_self (m : JsAdj) (k : JsVal) (v : List JsVal) :
    adjGet (adjSet m k v) k = some v := by
  induction m with
  | nil => simp [adjSet, adjGet]
  | cons e rest ih =>
      obtain ⟨k2, v2⟩ := e
      by_cases h : k2 = k
      · simp [adjSet, adjGet, h]
      · simp [adjSet, adjGet, h, ih]

lemma adjGet_set_other (m : JsAdj) (k x : JsVal) (v : List JsVal) (h : x ≠ k) :
    adjGet (adjSet m k v) x = adjGet m x := by
  induction m with
  | nil => simp [adjSet, adjGet, Ne.symm h]
  | cons e rest ih =>
      obtain ⟨k2, v2⟩ := e
      by_cases h2 : k2 = k
      · subst h2
        simp [adjSet, adjGet, Ne.symm h]
      · by_cases h3 : k2 = x
        · simp [adjSet, adjGet, h2, h3, h]
        · simp [adjSet, adjGet, h2, h3, ih]

lemma adjSucc_set (m : JsAdj) (k x : JsVal) (v : List JsVal) :
    adjSucc (adjSet m k v) x = if x = k then v else adjSucc m x := by
  by_cases h : x = k
  · subst h
    simp [adjSucc, adjGet_set_self]
  · simp [adjSucc, adjGet_set_other m k x v h, h]

lemma remCount_mono (univ : List JsVal) {v v2 : List JsVal} (h : v ⊆ v2) :
    remCount univ v2 ≤ remCount univ v := by
  unfold remCount
  apply List.Sublist.length_le
  apply List.monotone_filter_right
  intro a
  simp only [decide_eq_true_eq]
  exact fun ha hv => ha (h hv)

lemma remCount_cons_lt (univ : List JsVal) (v : List JsVal) (u : JsVal)
    (hu : u ∈ univ) (hv : u ∉ v) : remCount univ (u :: v) < remCount univ v := by
  induction univ with
  | nil => simp at hu
  | cons a univ2 ih =>
      unfold remCount at ih ⊢
      rw [List.filter_cons, List.filter_cons]
      rcases List.mem_cons.mp hu with rfl | ha
      · rw [if_neg (by simp), if_pos (by simpa using hv)]
        simp only [List.length_cons]
        have := remCount_mono univ2 (List.subset_cons_self u v)
        unfold remCount at this
        omega
      · by_cases hav : a ∈ v
        · rw [if_neg (by simp [hav]), if_neg (by simpa using hav)]
          exact ih ha
        · by_cases hau : a = u
          · subst hau
            rw [if_neg (by simp), if_pos (by simpa using hav)]
            simp only [List.length_cons]
            have := remCount_mono univ2 (List.subset_cons_self a v)
            unfold remCount at this
            omega
          · rw [if_pos (by simp [hav, hau]), if_pos (by simpa using hav)]
            simp only [List.length_cons]
            have := ih ha
            omega

/-- On a false result the neighbor loop restores the recursion stack and
only grows the visited set, provided the explorer f does the same. -/
lemma dfsNeighbors_false_basic
    (f : List JsVal → List JsVal → JsVal → Bool × List JsVal × List JsVal)
    (hf : ∀ v s u, s ⊆ v → u ∉ v → (f v s u).1 = false →
      (f v s u).2.2 = s ∧ v ⊆ (f v s u).2.1) :
    ∀ (ns v s : List JsVal), s ⊆ v → (dfsNeighbors f v s ns).1 = false →
      (dfsNeighbors f v s ns).2.2 = s ∧ v ⊆ (dfsNeighbors f v s ns).2.1 := by
  intro ns
  induction ns with
  | nil => exact fun v s _ _ => ⟨rfl, fun x h => h⟩
  | cons n rest ih =>
      intro v s hsv hres
      by_cases hnv : n ∈ v
      · by_cases hns : n ∈ s
        · simp [dfsNeighbors, hnv, hns] at hres
        · simp only [dfsNeighbors, if_pos hnv, if_neg hns] at hres ⊢
          exact ih v s hsv hres
      · simp only [dfsNeighbors, if_neg hnv] at hres ⊢
        by_cases hr1 : (f v s n).1
        · rw [if_pos hr1] at hres ⊢
          exact absurd hres (by simp [hr1])
        · rw [if_neg hr1] at hres ⊢
          obtain ⟨hstk, hvis⟩ := hf v s n hsv hnv (by simpa using hr1)
          have hsv2 : (f v s n).2.2 ⊆ (f v s n).2.1 := by
            rw [hstk]
            exact fun x h => hvis (hsv h)
          obtain ⟨h1, h2⟩ := ih (f v s n).2.1 (f v s n).2.2 hsv2 hres
          exact ⟨by rw [h1, hstk], fun x h => h2 (hvis h)⟩

/-- On a false result the dfs restores the recursion stack and only grows
the visited set. -/
lemma dfsVisit_false_basic (adj : JsAdj) :
    ∀ (fuel : Nat) (v s : List JsVal) (u : JsVal), s ⊆ v → u ∉ v →
      (dfsVisit adj fuel v s u).1 = false →
      (dfsVisit adj fuel v s u).2.2 = s ∧ v ⊆ (dfsVisit adj fuel v s u).2.1 := by
  intro fuel
  induction fuel with
  | zero => exact fun v s u _ _ _ => ⟨rfl, fun x h => h⟩
  | succ g ih =>
      intro v s u hsv huv hres
      have hus : u ∉ s := fun h => huv (hsv h)
      have hadd1 : setAdd v u = u :: v := if_neg huv
      have hadd2 : setAdd s u = u :: s := if_neg hus
      simp only [dfsVisit, hadd1, hadd2] at hres ⊢
      set rr := dfsNeighbors (dfsVisit adj g) (u :: v) (u :: s) (adjSucc adj u) with hrr
      by_cases hr1 : rr.1
      · rw [if_pos hr1] at hres ⊢
        exact absurd hres (by simp [hr1])
      · rw [if_neg hr1] at hres ⊢
        have hsub : (u :: s) ⊆ (u :: v) := by
          intro x hx
          rcases List.mem_cons.mp hx with rfl | hx2
          · exact List.mem_cons_self x v
          · exact List.mem_cons_of_mem u (hsv hx2)
        obtain ⟨hstk, hvis⟩ := dfsNeighbors_false_basic (dfsVisit adj g) ih
          (adjSucc adj u) (u :: v) (u :: s) hsub (by simpa using hr1)
        constructor
        · show rr.2.2.erase u = s
          rw [hstk, List.erase_cons_head]
        · exact fun x hx => hvis (List.mem_cons_of_mem u hx)

/-- Every element of the recursion stack (a path read top to bottom)
reaches the top of the stack. -/
lemma chain_reaches_head (adj : JsAdj) :
    ∀ (l : List JsVal) (hd : JsVal), List.Chain' (fun a b => EA adj b a) l →
      l.head? = some hd → ∀ n ∈ l, Relation.ReflTransGen (EA adj) n hd := by
  intro l
  induction l with
  | nil =>
      intro hd _ h
      simp at h
  | cons a l2 ih =>
      intro hd hchain hhd n hn
      rw [List.head?_cons, Option.some_inj] at hhd
      subst hhd
      rcases List.mem_cons.mp hn with rfl | hn2
      · exact Relation.ReflTransGen.refl
      · cases l2 with
        | nil => simp at hn2
        | cons b l3 =>
            have h1 := List.chain'_cons.mp hchain
            exact (ih b h1.2 rfl n hn2).tail h1.1

/-- Soundness of the neighbor loop, assuming soundness of the dfs it
invokes. -/
lemma dfsNeighbors_sound (adj : JsAdj) (r : JsVal) (fuel : Nat)
    (hA : DfsSoundAt adj r fuel) :
    ∀ (ns v s : List JsVal) (cur : JsVal) (hs2 : List JsVal), s = cur :: hs2 →
      List.Chain' (fun a b => EA adj b a) s →
      (∀ n ∈ ns, EA adj cur n) →
      (∀ y ∈ s, Relation.ReflTransGen (EA adj) r y) → s ⊆ v →
      (dfsNeighbors (dfsVisit adj fuel) v s ns).1 = true →
      ∃ x, Relation.ReflTransGen (EA adj) r x ∧ Relation.TransGen (EA adj) x x := by
  intro ns
  induction ns with
  | nil =>
      intro v s cur hs2 _ _ _ _ _ h
      simp [dfsNeighbors] at h
  | cons n rest ih =>
      intro v s cur hs2 hscons hchain hedges hreach hsv hres
      by_cases hnv : n ∈ v
      · by_cases hns : n ∈ s
        · refine ⟨n, hreach n hns, ?_⟩
          have hrn : Relation.ReflTransGen (EA adj) n cur :=
            chain_reaches_head adj s cur hchain (by rw [hscons]; rfl) n hns
          exact Relation.TransGen.tail' hrn (hedges n (List.mem_cons_self n rest))
        · simp only [dfsNeighbors, if_pos hnv, if_neg hns] at hres
          exact ih v s cur hs2 hscons hchain (fun m hm => hedges m (List.mem_cons_of_mem n hm))
            hreach hsv hres
      · simp only [dfsNeighbors, if_neg hnv] at hres
        by_cases hr1 : (dfsVisit adj fuel v s n).1
        · have hchainn : List.Chain' (fun a b => EA adj b a) (n :: s) := by
            rw [hscons]
            rw [List.chain'_cons]
            constructor
            · exact hedges n (List.mem_cons_self n rest)
            · rw [← hscons]
              exact hchain
          have hreachn : ∀ y ∈ n :: s, Relation.ReflTransGen (EA adj) r y := by
            intro y hy
            rcases List.mem_cons.mp hy with rfl | hy2
            · exact (hreach cur (by rw [hscons]; exact List.mem_cons_self cur hs2)).tail
                (hedges y (List.mem_cons_self y rest))
            · exact hreach y hy2
          exact hA v s n hchainn hreachn hsv hnv hr1
        · rw [if_neg hr1] at hres
          have hus : n ∉ s := fun h => hnv (hsv h)
          obtain ⟨hstk, hvis⟩ := dfsVisit_false_basic adj fuel v s n hsv hnv (by simpa using hr1)
          have hres2 := hres
          rw [hstk] at hres2
          exact ih (dfsVisit adj fuel v s n).2.1 s cur hs2 hscons hchain
            (fun m hm => hedges m (List.mem_cons_of_mem n hm)) hreach
            (fun x hx => hvis (hsv hx)) hres2

/-- Soundness of the dfs: a true result exhibits a node reachable from the
root that lies on a directed cycle. -/
lemma dfsVisit_sound (adj : JsAdj) (r : JsVal) : ∀ fuel, DfsSoundAt adj r fuel := by
  intro fuel
  induction fuel with
  | zero =>
      intro v s u _ _ _ _ h
      simp [dfsVisit] at h
  | succ g ih =>
      intro v s u hchain hreach hsv huv hres
      have hus : u ∉ s := fun h => huv (hsv h)
      have hadd1 : setAdd v u = u :: v := if_neg huv
      have hadd2 : setAdd s u = u :: s := if_neg hus
      simp only [dfsVisit, hadd1, hadd2] at hres
      set rr := dfsNeighbors (dfsVisit adj g) (u :: v) (u :: s) (adjSucc adj u) with hrr
      by_cases hr1 : rr.1
      · refine dfsNeighbors_sound adj r g ih (adjSucc adj u) (u :: v) (u :: s) u s rfl
          hchain (fun n hn => hn) hreach ?_ hr1
        intro x hx
        rcases List.mem_cons.mp hx with rfl | hx2
        · exact List.mem_cons_self x v
        · exact List.mem_cons_of_mem u (hsv hx2)
      · rw [if_neg hr1] at hres
        simp at hres

/-- A set of nodes closed under the successor relation contains everything
reachable from its members. -/
lemma reach_stays_closed (adj : JsAdj) (D : JsVal → Prop)
    (hD : ∀ x, D x → ∀ y, EA adj x y → D y) :
    ∀ a b, Relation.ReflTransGen (EA adj) a b → D a → D b := by
  intro a b h
  induction h with
  | refl => exact id
  | tail h1 e ih => exact fun ha => hD _ (ih ha) _ e

/-- Completeness invariant of the neighbor loop, assuming it for the dfs
it invokes: additionally every processed neighbor ends finished. -/
lemma dfsNbrs_complete (adj : JsAdj) (univ : List JsVal) (fuel : Nat)
    (hA : DfsCompleteAt adj univ fuel) :
    ∀ (ns v s : List JsVal), DoneClosed adj v s → (∀ n ∈ ns, n ∈ univ) →
      remCount univ v < fuel →
      (dfsNeighbors (dfsVisit adj fuel) v s ns).1 = false →
      v ⊆ (dfsNeighbors (dfsVisit adj fuel) v s ns).2.1 ∧
      (dfsNeighbors (dfsVisit adj fuel) v s ns).2.2 = s ∧
      DoneClosed adj (dfsNeighbors (dfsVisit adj fuel) v s ns).2.1 s ∧
      ∀ n ∈ ns, n ∈ (dfsNeighbors (dfsVisit adj fuel) v s ns).2.1 ∧ n ∉ s := by
  intro ns
  induction ns with
  | nil =>
      intro v s hdc _ _ _
      exact ⟨fun x h => h, rfl, hdc, by simp⟩
  | cons n rest ih =>
      intro v s hdc hns hcnt hres
      by_cases hnv : n ∈ v
      · by_cases hnstk : n ∈ s
        · simp [dfsNeighbors, hnv, hnstk] at hres
        · simp only [dfsNeighbors, if_pos hnv, if_neg hnstk] at hres ⊢
          obtain ⟨h1, h2, h3, h4⟩ := ih v s hdc
            (fun m hm => hns m (List.mem_cons_of_mem n hm)) hcnt hres
          refine ⟨h1, h2, h3, ?_⟩
          intro m hm
          rcases List.mem_cons.mp hm with rfl | hm2
          · exact ⟨h1 hnv, hnstk⟩
          · exact h4 m hm2
      · simp only [dfsNeighbors, if_neg hnv] at hres ⊢
        set rr := dfsVisit adj fuel v s n with hrr
        by_cases hr1 : rr.1
        · rw [if_pos hr1] at hres
          exact absurd hres (by simp [hr1])
        · rw [if_neg hr1] at hres ⊢
          obtain ⟨hn1, hn2, hn3, hn4⟩ := hA v s n hdc hnv
            (hns n (List.mem_cons_self n rest)) hcnt (by simpa using hr1)
          have hnstk : n ∉ s := fun h => hnv (hdc.1 n h)
          have hcnt2 : remCount univ rr.2.1 < fuel :=
            lt_of_le_of_lt (remCount_mono univ hn2) hcnt
          rw [hn3] at hres ⊢
          obtain ⟨g1, g2, g3, g4⟩ := ih rr.2.1 s hn4
            (fun m hm => hns m (List.mem_cons_of_mem n hm)) hcnt2 hres
          refine ⟨fun x hx => g1 (hn2 hx), g2, g3, ?_⟩
          intro m hm
          rcases List.mem_cons.mp hm with rfl | hm2
          · exact ⟨g1 hn1, hnstk⟩
          · exact g4 m hm2

/-- Completeness invariant of the dfs proper. -/
lemma dfsVisit_complete (adj : JsAdj) (univ : List JsVal)
    (hU : ∀ k y, y ∈ adjSucc adj k → y ∈ univ) :
    ∀ fuel, DfsCompleteAt adj univ fuel := by
  intro fuel
  induction fuel with
  | zero =>
      intro v s u _ _ _ hcnt
      omega
  | succ g ih =>
      intro v s u hdc huv huu hcnt hres
      have hus : u ∉ s := fun h => huv (hdc.1 u h)
      have hadd1 : setAdd v u = u :: v := if_neg huv
      have hadd2 : setAdd s u = u :: s := if_neg hus
      simp only [dfsVisit, hadd1, hadd2] at hres ⊢
      set rr := dfsNeighbors (dfsVisit adj g) (u :: v) (u :: s) (adjSucc adj u) with hrr
      by_cases hr1 : rr.1
      · rw [if_pos hr1] at hres
        exact absurd hres (by simp [hr1])
      · rw [if_neg hr1] at hres ⊢
        have hdc1 : DoneClosed adj (u :: v) (u :: s) := by
          obtain ⟨hd1, hd2, hd3⟩ := hdc
          refine ⟨?_, ?_, ?_⟩
          · intro x hx
            rcases List.mem_cons.mp hx with rfl | hx2
            · exact List.mem_cons_self x v
            · exact List.mem_cons_of_mem u (hd1 x hx2)
          · intro x hx hxs y hy
            have hxu : x ≠ u := fun h => hxs (h ▸ List.mem_cons_self u s)
            have hxv : x ∈ v := by
              rcases List.mem_cons.mp hx with rfl | hx2
              · exact absurd rfl hxu
              · exact hx2
            have hxs2 : x ∉ s := fun h => hxs (List.mem_cons_of_mem u h)
            obtain ⟨hy1, hy2⟩ := hd2 x hxv hxs2 y hy
            refine ⟨List.mem_cons_of_mem u hy1, ?_⟩
            intro hy3
            rcases List.mem_cons.mp hy3 with rfl | hy4
            · exact huv hy1
            · exact hy2 hy4
          · intro x hx hxs
            have hxu : x ≠ u := fun h => hxs (h ▸ List.mem_cons_self u s)
            have hxv : x ∈ v := by
              rcases List.mem_cons.mp hx with rfl | hx2
              · exact absurd rfl hxu
              · exact hx2
            exact hd3 x hxv (fun h => hxs (List.mem_cons_of_mem u h))
        have hcnt1 : remCount univ (u :: v) < g := by
          have h1 := remCount_cons_lt univ v u huu huv
          omega
        obtain ⟨g1, g2, g3, g4⟩ := dfsNbrs_complete adj univ g ih (adjSucc adj u)
          (u :: v) (u :: s) hdc1 (fun n hn => hU u n hn) hcnt1 (by simpa using hr1)
        have hstk : rr.2.2.erase u = s := by
          rw [g2, List.erase_cons_head]
        refine ⟨g1 (List.mem_cons_self u v), fun x hx => g1 (List.mem_cons_of_mem u hx),
          hstk, ?_, ?_, ?_⟩
        · intro x hx
          exact g1 (List.mem_cons_of_mem u (hdc.1 x hx))
        · intro x hx hxs y hy
          by_cases hxu : x = u
          · subst hxu
            obtain ⟨hy1, hy2⟩ := g4 y hy
            exact ⟨hy1, fun h => hy2 (List.mem_cons_of_mem x h)⟩
          · obtain ⟨hy1, hy2⟩ := g3.2.1 x hx
              (fun h => (List.mem_cons.mp h).elim hxu hxs) y hy
            exact ⟨hy1, fun h => hy2 (List.mem_cons_of_mem u h)⟩
        · intro x hx hxs hcyc
          by_cases hxu : x = u
          · subst hxu
            obtain ⟨y, hy1, hy2⟩ := (Relation.TransGen.head'_iff).mp hcyc
            obtain ⟨hyd1, hyd2⟩ := g4 y hy1
            have hDclosed : ∀ z, (z ∈ rr.2.1 ∧ z ∉ x :: s) → ∀ w, EA adj z w →
                w ∈ rr.2.1 ∧ w ∉ x :: s := by
              intro z hz w hw
              exact g3.2.1 z hz.1 hz.2 w hw
            have hxd := reach_stays_closed adj (fun z => z ∈ rr.2.1 ∧ z ∉ x :: s)
              hDclosed y x hy2 ⟨hyd1, hyd2⟩
            exact hxd.2 (List.mem_cons_self x s)
          · exact g3.2.2 x hx (fun h => (List.mem_cons.mp h).elim hxu hxs) hcyc

/-- Soundness of the outer loop of hasCycle: a true result exhibits a node
on a directed cycle reachable from one of the declared node ids. -/
lemma hasCycleLoop_sound (adj : JsAdj) (fuel : Nat) :
    ∀ (nodes : List JsVal) (ids : List String),
      List.Forall₂ (fun nd i => nd.getField "id" = Except.ok (.str i)) nodes ids →
      ∀ v, hasCycleLoop adj fuel nodes v [] = .ok true →
      ∃ i ∈ ids, ∃ x, Relation.ReflTransGen (EA adj) (JsVal.str i) x ∧
        Relation.TransGen (EA adj) x x := by
  intro nodes ids hids
  induction hids with
  | nil =>
      intro v h
      simp [hasCycleLoop] at h
  | cons hnd hrest ih =>
      rename_i nd i rest restIds
      intro v hres
      simp only [hasCycleLoop, Bind.bind, Except.bind, hnd] at hres
      by_cases hv : (JsVal.str i) ∈ v
      · rw [if_pos hv] at hres
        obtain ⟨j, hj, x, hx⟩ := ih v hres
        exact ⟨j, List.mem_cons_of_mem i hj, x, hx⟩
      · rw [if_neg hv] at hres
        set rr := dfsVisit adj fuel v [] (.str i) with hrr
        by_cases hr1 : rr.1
        · obtain ⟨x, hx1, hx2⟩ := dfsVisit_sound adj (.str i) fuel v [] (.str i)
            (List.chain'_singleton _)
            (by
              intro y hy
              rw [List.mem_singleton] at hy
              subst hy
              exact Relation.ReflTransGen.refl)
            (by simp) hv hr1
          exact ⟨i, List.mem_cons_self i restIds, x, hx1, hx2⟩
        · rw [if_neg hr1] at hres
          obtain ⟨hstk, _⟩ := dfsVisit_false_basic adj fuel v [] (.str i)
            (by simp) hv (by simpa using hr1)
          rw [hstk] at hres
          obtain ⟨j, hj, x, hx⟩ := ih rr.2.1 hres
          exact ⟨j, List.mem_cons_of_mem i hj, x, hx⟩

/-- Completeness of the outer loop of hasCycle: a false result yields a
successor-closed, cycle-free visited set containing every declared node
id. -/
lemma hasCycleLoop_complete (adj : JsAdj) (univ : List JsVal)
    (hU : ∀ k y, y ∈ adjSucc adj k → y ∈ univ) (fuel : Nat) :
    ∀ (nodes : List JsVal) (ids : List String),
      List.Forall₂ (fun nd i => nd.getField "id" = Except.ok (.str i)) nodes ids →
      ∀ v, DoneClosed adj v [] → remCount univ v < fuel →
      (∀ i ∈ ids, JsVal.str i ∈ univ) →
      hasCycleLoop adj fuel nodes v [] = .ok false →
      ∃ vfin, v ⊆ vfin ∧ DoneClosed adj vfin [] ∧ ∀ i ∈ ids, JsVal.str i ∈ vfin := by
  intro nodes ids hids
  induction hids with
  | nil =>
      intro v hdc _ _ _
      exact ⟨v, fun x h => h, hdc, by simp⟩
  | cons hnd hrest ih =>
      rename_i nd i rest restIds
      intro v hdc hcnt hroots hres
      simp only [hasCycleLoop, Bind.bind, Except.bind, hnd] at hres
      by_cases hv : (JsVal.str i) ∈ v
      · rw [if_pos hv] at hres
        obtain ⟨vfin, h1, h2, h3⟩ := ih v hdc hcnt
          (fun j hj => hroots j (List.mem_cons_of_mem i hj)) hres
        refine ⟨vfin, h1, h2, ?_⟩
        intro j hj
        rcases List.mem_cons.mp hj with rfl | hj2
        · exact h1 hv
        · exact h3 j hj2
      · rw [if_neg hv] at hres
        set rr := dfsVisit adj fuel v [] (.str i) with hrr
        by_cases hr1 : rr.1
        · rw [if_pos hr1] at hres
          exact absurd hres (by simp)
        · rw [if_neg hr1] at hres
          obtain ⟨hin, hsub, hstk, hdc2⟩ := dfsVisit_complete adj univ hU fuel v [] (.str i)
            hdc hv (hroots i (List.mem_cons_self i restIds)) hcnt (by simpa using hr1)
          rw [hstk] at hres
          have hcnt2 : remCount univ rr.2.1 < fuel :=
            lt_of_le_of_lt (remCount_mono univ hsub) hcnt
          obtain ⟨vfin, h1, h2, h3⟩ := ih rr.2.1 hdc2 hcnt2
            (fun j hj => hroots j (List.mem_cons_of_mem i hj)) hres
          refine ⟨vfin, fun x hx => h1 (hsub hx), h2, ?_⟩
          intro j hj
          rcases List.mem_cons.mp hj with rfl | hj2
          · exact h1 hin
          · exact h3 j hj2

lemma strTargets_nil (x : JsVal) : strTargets [] x = [] := by
  cases x <;> simp [strTargets]

lemma adjAddNodes_succ_nil :
    ∀ (nodes : List JsVal) (ids : List String),
      List.Forall₂ (fun nd i => nd.getField "id" = Except.ok (.str i)) nodes ids →
      ∀ m, (∀ x, adjSucc m x = []) →
      ∃ m2, adjAddNodes nodes m = .ok m2 ∧ ∀ x, adjSucc m2 x = [] := by
  intro nodes ids hids
  induction hids with
  | nil => exact fun m hm => ⟨m, rfl, hm⟩
  | cons hnd hrest ih =>
      rename_i nd i rest restIds
      intro m hm
      obtain ⟨m2, h2, hm2⟩ := ih (adjSet m (.str i) [])
        (by
          intro x
          rw [adjSucc_set]
          by_cases h : x = JsVal.str i
          · rw [if_pos h]
          · rw [if_neg h]
            exact hm x)
      exact ⟨m2, by simp only [adjAddNodes, Bind.bind, Except.bind, hnd]; exact h2, hm2⟩

lemma adjAddEdges_char :
    ∀ (edges : List JsVal) (prs : List (String × String)),
      List.Forall₂ (fun ed p => ed.getField "source" = Except.ok (.str p.1) ∧
        ed.getField "target" = Except.ok (.str p.2)) edges prs →
      ∀ (m : JsAdj) (g : JsVal → List JsVal), (∀ x, adjSucc m x = g x) →
      ∃ m2, adjAddEdges edges m = .ok m2 ∧
        ∀ x, adjSucc m2 x = g x ++ strTargets prs x := by
  intro edges prs hprs
  induction hprs with
  | nil =>
      intro m g hm
      exact ⟨m, rfl, fun x => by rw [strTargets_nil, List.append_nil]; exact hm x⟩
  | cons hed hrest ih =>
      rename_i ed p rest restPrs
      intro m g hm
      obtain ⟨hsrc, htgt⟩ := hed
      obtain ⟨m2, h2, hm2⟩ := ih (adjSet m (.str p.1) (adjSucc m (.str p.1) ++ [.str p.2]))
        (fun x => if x = JsVal.str p.1 then g (.str p.1) ++ [.str p.2] else g x)
        (by
          intro x
          by_cases h : x = JsVal.str p.1
          · simp [adjSucc_set, h, hm]
          · simp [adjSucc_set, h, hm x])
      refine ⟨m2, ?_, ?_⟩
      · simp only [adjAddEdges, Bind.bind, Except.bind, hsrc, htgt]
        exact h2
      · intro x
        rw [hm2 x]
        cases x with
        | str a =>
            by_cases hap : a = p.1
            · have hT : strTargets (p :: restPrs) (JsVal.str p.1) =
                  JsVal.str p.2 :: strTargets restPrs (JsVal.str p.1) := by
                simp [strTargets, List.filter_cons]
              simp [hap, hT, List.append_assoc]
            · have hne : JsVal.str a ≠ JsVal.str p.1 := by
                intro h
                exact hap (by injection h)
              rw [if_neg hne]
              have hT : strTargets (p :: restPrs) (JsVal.str a) =
                  strTargets restPrs (JsVal.str a) := by
                simp [strTargets, List.filter_cons, Ne.symm hap]
              rw [hT]
        | null => simp [strTargets]
        | undefined => simp [strTargets]
        | bool b => simp [strTargets]
        | num n => simp [strTargets]
        | arr l => simp [strTargets]
        | obj fs => simp [strTargets]

/-- The adjacency built by hasCycle realizes exactly the edge-pair
relation on string ids. -/
lemma EA_strTargets {m : JsAdj} {prs : List (String × String)}
    (hm : ∀ x, adjSucc m x = strTargets prs x) (x y : JsVal) :
    EA m x y ↔ ∃ a b, x = .str a ∧ y = .str b ∧ (a, b) ∈ prs := by
  unfold EA
  rw [hm]
  cases x with
  | str a =>
      simp only [strTargets, List.mem_map, List.mem_filter, decide_eq_true_eq]
      constructor
      · rintro ⟨q, ⟨hq, hq1⟩, rfl⟩
        exact ⟨a, q.2, rfl, rfl, by rw [← hq1]; exact hq⟩
      · rintro ⟨a2, b, ha, rfl, hab⟩
        injection ha with ha2
        subst ha2
        exact ⟨(_, b), ⟨hab, rfl⟩, rfl⟩
  | null => simp [strTargets]
  | undefined => simp [strTargets]
  | bool b => simp [strTargets]
  | num n => simp [strTargets]
  | arr l => simp [strTargets]
  | obj fs => simp [strTargets]

lemma transGen_down {m : JsAdj} {prs : List (String × String)}
    (hm : ∀ x, adjSucc m x = strTargets prs x) :
    ∀ x y, Relation.TransGen (EA m) x y →
      ∃ a b, x = .str a ∧ y = .str b ∧ Relation.TransGen (pairRel prs) a b := by
  intro x y h
  induction h with
  | single e =>
      obtain ⟨a, b, rfl, rfl, hab⟩ := (EA_strTargets hm _ _).mp e
      exact ⟨a, b, rfl, rfl, Relation.TransGen.single hab⟩
  | tail h e ih =>
      obtain ⟨a, b, rfl, rfl, hab⟩ := ih
      obtain ⟨b2, c, hb, rfl, hbc⟩ := (EA_strTargets hm _ _).mp e
      injection hb with hb2
      subst hb2
      exact ⟨a, c, rfl, rfl, hab.tail hbc⟩

lemma transGen_up {m : JsAdj} {prs : List (String × String)}
    (hm : ∀ x, adjSucc m x = strTargets prs x) :
    ∀ a b, Relation.TransGen (pairRel prs) a b →
      Relation.TransGen (EA m) (.str a) (.str b) := by
  intro a b h
  induction h with
  | single e => exact Relation.TransGen.single ((EA_strTargets hm _ _).mpr ⟨_, _, rfl, rfl, e⟩)
  | tail h e ih => exact ih.tail ((EA_strTargets hm _ _).mpr ⟨_, _, rfl, rfl, e⟩)

lemma reflTransGen_down {m : JsAdj} {prs : List (String × String)}
    (hm : ∀ x, adjSucc m x = strTargets prs x) :
    ∀ (a : String) (y : JsVal), Relation.ReflTransGen (EA m) (.str a) y →
      ∃ b, y = .str b ∧ Relation.ReflTransGen (pairRel prs) a b := by
  intro a y h
  induction h with
  | refl => exact ⟨a, rfl, Relation.ReflTransGen.refl⟩
  | tail h e ih =>
      obtain ⟨b, rfl, hab⟩ := ih
      obtain ⟨b2, c, hb, rfl, hbc⟩ := (EA_strTargets hm _ _).mp e
      injection hb with hb2
      subst hb2
      exact ⟨c, rfl, hab.tail hbc⟩

lemma reflTransGen_up {m : JsAdj} {prs : List (String × String)}
    (hm : ∀ x, adjSucc m x = strTargets prs x) :
    ∀ a b, Relation.ReflTransGen (pairRel prs) a b →
      Relation.ReflTransGen (EA m) (.str a) (.str b) := by
  intro a b h
  induction h with
  | refl => exact Relation.ReflTransGen.refl
  | tail h e ih => exact ih.tail ((EA_strTargets hm _ _).mpr ⟨_, _, rfl, rfl, e⟩)

/-- Full characterization of hasCycle on graph documents with string node
ids and string edge endpoints: it reports true exactly when some node on
a directed cycle of the edge-pair graph is reachable from a declared node
id.  Cycles formed entirely by edges among undeclared ids and unreachable
from every declared id are not detected, because the dfs only starts from
declared ids. -/
lemma hasCycle_spec (nodes edges : List JsVal) (ids : List String)
    (prs : List (String × String))
    (hids : List.Forall₂ (fun nd i => nd.getField "id" = Except.ok (.str i)) nodes ids)
    (hprs : List.Forall₂ (fun ed p => ed.getField "source" = Except.ok (.str p.1) ∧
      ed.getField "target" = Except.ok (.str p.2)) edges prs) :
    ∃ b, hasCycle nodes edges = .ok b ∧
      (b = true ↔ ∃ i ∈ ids, ∃ x, Relation.ReflTransGen (pairRel prs) i x ∧
        Relation.TransGen (pairRel prs) x x) := by
  obtain ⟨m0, h0, hm0⟩ := adjAddNodes_succ_nil nodes ids hids []
    (by intro x; simp [adjSucc, adjGet])
  obtain ⟨m, h1, hm1⟩ := adjAddEdges_char edges prs hprs m0 (fun _ => []) hm0
  have hm : ∀ x, adjSucc m x = strTargets prs x := by
    intro x
    simpa using hm1 x
  set fuel := nodes.length + edges.length + 1 with hfuel
  obtain ⟨b, hb⟩ := hasCycleLoop_ok m fuel nodes ids hids [] []
  refine ⟨b, ?_, ?_⟩
  · simp only [hasCycle, Bind.bind, Except.bind, h0, h1]
    exact hb
  · constructor
    · intro hbt
      subst hbt
      obtain ⟨i, hi, x, hx1, hx2⟩ := hasCycleLoop_sound m fuel nodes ids hids [] hb
      obtain ⟨c, rfl, hic⟩ := reflTransGen_down hm i x hx1
      obtain ⟨c1, c2, hc1, hc2, hcyc⟩ := transGen_down hm _ _ hx2
      injection hc1 with he1
      injection hc2 with he2
      subst he1
      subst he2
      exact ⟨i, hi, c, hic, hcyc⟩
    · intro hex
      by_contra hbf
      have hbfalse : b = false := by
        cases b
        · rfl
        · exact absurd rfl hbf
      subst hbfalse
      obtain ⟨i, hi, x, hx1, hx2⟩ := hex
      set univ := ids.map JsVal.str ++ prs.map (fun p => JsVal.str p.2) with huniv
      have hU : ∀ k y, y ∈ adjSucc m k → y ∈ univ := by
        intro k y hy
        rw [hm k] at hy
        cases k with
        | str a =>
            simp only [strTargets, List.mem_map, List.mem_filter] at hy
            obtain ⟨q, ⟨hq, _⟩, rfl⟩ := hy
            exact List.mem_append_right _ (List.mem_map_of_mem _ hq)
        | null => simp [strTargets] at hy
        | undefined => simp [strTargets] at hy
        | bool c => simp [strTargets] at hy
        | num n => simp [strTargets] at hy
        | arr l => simp [strTargets] at hy
        | obj fs => simp [strTargets] at hy
      have hdc0 : DoneClosed m [] [] := by
        refine ⟨fun x h => h, ?_, ?_⟩
        · intro x hx
          simp at hx
        · intro x hx
          simp at hx
      have hroots : ∀ j ∈ ids, JsVal.str j ∈ univ :=
        fun j hj => List.mem_append_left _ (List.mem_map_of_mem _ hj)
      have hcnt : remCount univ [] < fuel := by
        have hlen : remCount univ [] ≤ univ.length := by
          unfold remCount
          exact List.length_filter_le _ _
        have hlen2 : univ.length = ids.length + prs.length := by
          rw [huniv, List.length_append, List.length_map, List.length_map]
        have hl1 : ids.length = nodes.length := (List.Forall₂.length_eq hids).symm
        have hl2 : prs.length = edges.length := (List.Forall₂.length_eq hprs).symm
        omega
      obtain ⟨vfin, _, hdc, hroots2⟩ := hasCycleLoop_complete m univ hU fuel nodes ids hids
        [] hdc0 hcnt hroots hb
      have hxin : JsVal.str x ∈ vfin := by
        refine reach_stays_closed m (fun z => z ∈ vfin) ?_ (.str i) (.str x)
          (reflTransGen_up hm i x hx1) (hroots2 i hi)
        intro z hz w hw
        exact (hdc.2.1 z hz (by simp) w hw).1
      exact hdc.2.2 (JsVal.str x) hxin (by simp) (transGen_up hm x x hx2)

lemma nodeStep_clean_eval (nd : JsVal) (i t : String) (errs nids : List String)
    (hid : nd.getField "id" = .ok (.str i)) (hty : nd.getField "type" = .ok (.str t))
    (hi : i ≠ "") (ht : t ≠ "") (hfresh : i ∉ nids) :
    nodeStep (errs, nids) nd = .ok (errs, setAdd nids i) := by
  simp [nodeStep, hid, hty, hi, ht, hfresh, Bind.bind, Except.bind, Pure.pure, Except.pure]

/-- The nodes loop on fully well-formed fresh nodes reports no error and
registers exactly the declared ids. -/
lemma nodesLoop_clean :
    ∀ (nodes : List JsVal) (ids : List String),
      List.Forall₂ (fun nd i => nd.getField "id" = Except.ok (.str i) ∧
        ∃ t, t ≠ "" ∧ nd.getField "type" = Except.ok (.str t)) nodes ids →
      (∀ i ∈ ids, i ≠ "") → ids.Nodup →
      ∀ nids, (∀ i ∈ ids, i ∉ nids) →
      ∀ errs, ∃ nids2, nodesLoop nodes (errs, nids) = .ok (errs, nids2) ∧
        ∀ s, s ∈ nids2 ↔ s ∈ nids ∨ s ∈ ids := by
  intro nodes ids hids
  induction hids with
  | nil =>
      intro _ _ nids _ errs
      exact ⟨nids, rfl, fun s => by simp⟩
  | cons hnd hrest ih =>
      rename_i nd i rest restIds
      intro hne hndup nids hfresh errs
      obtain ⟨hid, t, ht, hty⟩ := hnd
      have hi : i ≠ "" := hne i (List.mem_cons_self i restIds)
      have hstep := nodeStep_clean_eval nd i t errs nids hid hty hi ht
        (hfresh i (List.mem_cons_self i restIds))
      have hndup2 := List.nodup_cons.mp hndup
      obtain ⟨nids2, hloop, hmem⟩ := ih (fun j hj => hne j (List.mem_cons_of_mem i hj))
        hndup2.2 (setAdd nids i)
        (by
          intro j hj hjmem
          have : j ∈ nids ∨ j = i := by
            by_cases h : i ∈ nids
            · rw [setAdd, if_pos h] at hjmem
              exact Or.inl hjmem
            · rw [setAdd, if_neg h] at hjmem
              rcases List.mem_cons.mp hjmem with rfl | h2
              · exact Or.inr rfl
              · exact Or.inl h2
          rcases this with h2 | rfl
          · exact hfresh j (List.mem_cons_of_mem i hj) h2
          · exact hndup2.1 hj)
        errs
      refine ⟨nids2, ?_, ?_⟩
      · simp only [nodesLoop, Bind.bind, Except.bind, hstep]
        exact hloop
      · intro s
        rw [hmem s]
        constructor
        · rintro (h | h)
          · by_cases hin : i ∈ nids
            · rw [setAdd, if_pos hin] at h
              exact Or.inl h
            · rw [setAdd, if_neg hin] at h
              rcases List.mem_cons.mp h with rfl | h2
              · exact Or.inr (List.mem_cons_self s restIds)
              · exact Or.inl h2
          · exact Or.inr (List.mem_cons_of_mem i h)
        · rintro (h | h)
          · left
            by_cases hin : i ∈ nids
            · rw [setAdd, if_pos hin]
              exact h
            · rw [setAdd, if_neg hin]
              exact List.mem_cons_of_mem i h
          · rcases List.mem_cons.mp h with rfl | h2
            · left
              by_cases hin : s ∈ nids
              · rw [setAdd, if_pos hin]
                exact hin
              · rw [setAdd, if_neg hin]
                exact List.mem_cons_self s nids
            · exact Or.inr h2

lemma edgeStep_clean_eval (nids errs : List String) (ed : JsVal) (s t : String)
    (hsrc : ed.getField "source" = .ok (.str s)) (htgt : ed.getField "target" = .ok (.str t))
    (hs : s ≠ "") (ht : t ≠ "") :
    edgeStep nids errs ed = .ok (errs ++
      (if s ∈ nids then [] else ["Edge references non-existent source node: " ++ s]) ++
      (if t ∈ nids then [] else ["Edge references non-existent target node: " ++ t])) := by
  simp only [edgeStep, hsrc, htgt, Bind.bind, Except.bind, Pure.pure, Except.pure,
    if_neg hs, if_neg ht]
  by_cases h1 : s ∈ nids <;> by_cases h2 : t ∈ nids <;> simp [h1, h2]

/-- The edges loop on fully valid edges whose endpoints are all registered
leaves the error list unchanged. -/
lemma edgesLoop_clean (nids : List String) :
    ∀ (edges : List JsVal) (prs : List (String × String)),
      List.Forall₂ (fun ed p => ed.getField "source" = Except.ok (.str p.1) ∧
        ed.getField "target" = Except.ok (.str p.2)) edges prs →
      (∀ p ∈ prs, p.1 ≠ "" ∧ p.2 ≠ "" ∧ p.1 ∈ nids ∧ p.2 ∈ nids) →
      ∀ errs, edgesLoop nids edges errs = .ok errs := by
  intro edges prs hprs
  induction hprs with
  | nil => exact fun _ errs => rfl
  | cons hed hrest ih =>
      rename_i ed p rest restPrs
      intro hokp errs
      obtain ⟨h1, h2, h3, h4⟩ := hokp p (List.mem_cons_self p restPrs)
      have hstep := edgeStep_clean_eval nids errs ed p.1 p.2 hed.1 hed.2 h1 h2
      rw [if_pos h3, if_pos h4] at hstep
      simp only [List.append_nil] at hstep
      simp only [edgesLoop, Bind.bind, Except.bind, hstep]
      exact ih (fun q hq => hokp q (List.mem_cons_of_mem p hq)) errs

/-- The empty edge list yields an acyclic graph. -/
lemma acyclicPairs_nil : AcyclicPairs [] := by
  intro s h
  obtain ⟨y, hy, _⟩ := (Relation.TransGen.head'_iff).mp h
  simp [pairRel] at hy

/-- Amended claim C1: for every graph document whose nodes carry unique
NONEMPTY string ids and nonempty string types, and whose edges carry
nonempty string sources and targets naming declared node ids,
validatePipelineGraph returns valid true with an empty error list iff the
directed graph of the edges is acyclic, and if any directed cycle exists
(a self loop included) the error list is exactly
["Pipeline graph contains cycles"].  In particular the empty graph is
valid.  (As stated the claim also covered the empty-string id, a string
that the truthiness check treats as missing.) -/
theorem validate_wellformed_valid_iff_acyclic (g : JsVal) (nodes edges : List JsVal)
    (ids : List String) (prs : List (String × String))
    (hn : g.getField "nodes" = .ok (.arr nodes))
    (he : g.getField "edges" = .ok (.arr edges))
    (hids : List.Forall₂ (fun nd i => nd.getField "id" = Except.ok (.str i) ∧
      ∃ t, t ≠ "" ∧ nd.getField "type" = Except.ok (.str t)) nodes ids)
    (hne : ∀ i ∈ ids, i ≠ "") (hnodup : ids.Nodup)
    (hprs : List.Forall₂ (fun ed p => ed.getField "source" = Except.ok (.str p.1) ∧
      ed.getField "target" = Except.ok (.str p.2)) edges prs)
    (hdecl : ∀ p ∈ prs, p.1 ∈ ids ∧ p.2 ∈ ids) :
    (validatePipelineGraph g = ⟨true, []⟩ ↔ AcyclicPairs prs) ∧
    (¬ AcyclicPairs prs →
      validatePipelineGraph g = ⟨false, ["Pipeline graph contains cycles"]⟩) := by
  obtain ⟨fields, rfl⟩ := getField_arr_obj g "nodes" nodes hn
  have hids2 : List.Forall₂ (fun nd i => nd.getField "id" = Except.ok (.str i)) nodes ids :=
    hids.imp (fun _ _ h => h.1)
  obtain ⟨nids, hnl, hmem⟩ := nodesLoop_clean nodes ids hids hne hnodup []
    (by simp) []
  have hel : edgesLoop nids edges [] = .ok [] := by
    refine edgesLoop_clean nids edges prs hprs ?_ []
    intro p hp
    obtain ⟨hp1, hp2⟩ := hdecl p hp
    exact ⟨hne p.1 hp1, hne p.2 hp2, (hmem p.1).mpr (Or.inr hp1), (hmem p.2).mpr (Or.inr hp2)⟩
  obtain ⟨b, hc, hiff⟩ := hasCycle_spec nodes edges ids prs hids2 hprs
  have hmain := validateInner_main fields nodes edges hn he [] nids hnl [] hel b hc
  have hba : b = true ↔ ¬ AcyclicPairs prs := by
    rw [hiff]
    constructor
    · rintro ⟨i, hi, x, hx1, hx2⟩ hac
      exact hac x hx2
    · intro hac
      rw [AcyclicPairs] at hac
      push_neg at hac
      obtain ⟨s, hs⟩ := hac
      obtain ⟨y, hy, _⟩ := (Relation.TransGen.head'_iff).mp hs
      exact ⟨s, (hdecl (s, y) hy).1, s, Relation.ReflTransGen.refl, hs⟩
  unfold validatePipelineGraph
  rw [hmain]
  cases b
  · have hac : AcyclicPairs prs := by
      by_contra h
      exact absurd (hba.mpr h) (by simp)
    constructor
    · simp [hac]
    · intro h
      exact absurd hac h
  · have hac : ¬ AcyclicPairs prs := hba.mp rfl
    constructor
    · constructor
      · intro h
        simp at h
      · intro h
        exact absurd h hac
    · intro _
      simp

/-- Counterexample to claim C1 as stated: a graph document whose single
node carries the string id "" and the string type t, with no edges (hence
acyclic), is reported invalid with a missing-id error, because the
truthiness test treats the empty string as an absent id. -/
theorem validate_empty_id_cex :
    ([""] : List String).Nodup ∧
    List.Forall₂ (fun nd i => nd.getField "id" = Except.ok (.str i) ∧
      ∃ t, nd.getField "type" = Except.ok (.str t)) [emptyIdNode] [""] ∧
    AcyclicPairs [] ∧
    validatePipelineGraph emptyIdDoc = ⟨false, ["Each node must have a string id"]⟩ :=
  ⟨by decide,
   List.Forall₂.cons ⟨by decide, "t", by decide⟩ List.Forall₂.nil,
   acyclicPairs_nil,
   by decide⟩

/-- Witness for the amended claim C1 on a concrete two-node cycle. -/
theorem validate_wellformed_valid_iff_acyclic_witness :
    validatePipelineGraph (graphDoc [nodeDoc "a" "t", nodeDoc "b" "t"]
      [edgeDoc "a" "b", edgeDoc "b" "a"]) =
      ⟨false, ["Pipeline graph contains cycles"]⟩ := by
  have hcyc : ¬ AcyclicPairs [("a", "b"), ("b", "a")] := by
    intro hac
    refine hac "a" ?_
    exact Relation.TransGen.tail
      (Relation.TransGen.single (show pairRel [("a", "b"), ("b", "a")] "a" "b" by
        simp [pairRel]))
      (show pairRel [("a", "b"), ("b", "a")] "b" "a" by simp [pairRel])
  exact (validate_wellformed_valid_iff_acyclic
    (graphDoc [nodeDoc "a" "t", nodeDoc "b" "t"] [edgeDoc "a" "b", edgeDoc "b" "a"])
    [nodeDoc "a" "t", nodeDoc "b" "t"] [edgeDoc "a" "b", edgeDoc "b" "a"]
    ["a", "b"] [("a", "b"), ("b", "a")]
    (by decide) (by decide)
    (List.Forall₂.cons ⟨by decide, "t", by decide, by decide⟩
      (List.Forall₂.cons ⟨by decide, "t", by decide, by decide⟩ List.Forall₂.nil))
    (by decide) (by decide)
    (List.Forall₂.cons ⟨by decide, by decide⟩
      (List.Forall₂.cons ⟨by decide, by decide⟩ List.Forall₂.nil))
    (by decide)).2 hcyc

/-- The nodes loop registers only declared id strings. -/
lemma nodesLoop_ids_subset :
    ∀ (nodes : List JsVal) (ids : List String),
      List.Forall₂ (fun nd i => nd.getField "id" = Except.ok (.str i)) nodes ids →
      ∀ errs nids, ∃ errs2 nids2,
        nodesLoop nodes (errs, nids) = .ok (errs2, nids2) ∧
        ∀ s, s ∈ nids2 → s ∈ nids ∨ s ∈ ids := by
  intro nodes ids hids
  induction hids with
  | nil =>
      intro errs nids
      exact ⟨errs, nids, rfl, fun s h => Or.inl h⟩
  | cons hnd hrest ih =>
      rename_i nd i rest restIds
      intro errs nids
      by_cases hi : i = ""
      · subst hi
        obtain ⟨errs2, nids2, hloop, hsub⟩ := ih (errs ++ ["Each node must have a string id"]) nids
        refine ⟨errs2, nids2, ?_, ?_⟩
        · simp only [nodesLoop, Bind.bind, Except.bind, (nodeStep_char nd "" hnd errs nids).1 rfl]
          exact hloop
        · intro s hs
          rcases hsub s hs with h | h
          · exact Or.inl h
          · exact Or.inr (List.mem_cons_of_mem _ h)
      · obtain ⟨tail, hstep, _⟩ := (nodeStep_char nd i hnd errs nids).2 hi
        obtain ⟨errs2, nids2, hloop, hsub⟩ := ih
          ((if i ∈ nids then errs ++ ["Duplicate node id: " ++ i] else errs) ++ tail)
          (setAdd nids i)
        refine ⟨errs2, nids2, ?_, ?_⟩
        · simp only [nodesLoop, Bind.bind, Except.bind, hstep]
          exact hloop
        · intro s hs
          rcases hsub s hs with h | h
          · by_cases hin : i ∈ nids
            · rw [setAdd, if_pos hin] at h
              exact Or.inl h
            · rw [setAdd, if_neg hin] at h
              rcases List.mem_cons.mp h with rfl | h2
              · exact Or.inr (List.mem_cons_self s restIds)
              · exact Or.inl h2
          · exact Or.inr (List.mem_cons_of_mem _ h)

/-- The edges loop reports a reference error for every edge endpoint (a
nonempty string) that names no registered node id. -/
lemma edgesLoop_ref_errors (nids : List String) :
    ∀ (edges : List JsVal) (prs : List (String × String)),
      List.Forall₂ (fun ed p => ed.getField "source" = Except.ok (.str p.1) ∧
        ed.getField "target" = Except.ok (.str p.2)) edges prs →
      (∀ p ∈ prs, p.1 ≠ "" ∧ p.2 ≠ "") →
      ∀ errs, ∃ errs2, edgesLoop nids edges errs = .ok errs2 ∧
        (∀ m ∈ errs, m ∈ errs2) ∧
        ∀ p ∈ prs,
          (p.1 ∉ nids → ("Edge references non-existent source node: " ++ p.1) ∈ errs2) ∧
          (p.2 ∉ nids → ("Edge references non-existent target node: " ++ p.2) ∈ errs2) := by
  intro edges prs hprs
  induction hprs with
  | nil =>
      intro _ errs
      exact ⟨errs, rfl, fun m h => h, by simp⟩
  | cons hed hrest ih =>
      rename_i ed p rest restPrs
      intro hpne errs
      obtain ⟨hp1, hp2⟩ := hpne p (List.mem_cons_self p restPrs)
      have hstep := edgeStep_clean_eval nids errs ed p.1 p.2 hed.1 hed.2 hp1 hp2
      set errs1 := errs ++
        (if p.1 ∈ nids then [] else ["Edge references non-existent source node: " ++ p.1]) ++
        (if p.2 ∈ nids then [] else ["Edge references non-existent target node: " ++ p.2])
        with herrs1
      obtain ⟨errs2, hloop, hmono, href⟩ := ih
        (fun q hq => hpne q (List.mem_cons_of_mem p hq)) errs1
      refine ⟨errs2, ?_, ?_, ?_⟩
      · simp only [edgesLoop, Bind.bind, Except.bind, hstep]
        exact hloop
      · intro m hm
        refine hmono m ?_
        rw [herrs1]
        exact List.mem_append_left _ (List.mem_append_left _ hm)
      · intro q hq
        rcases List.mem_cons.mp hq with rfl | hq2
        · constructor
          · intro hnot
            refine hmono _ ?_
            rw [herrs1]
            refine List.mem_append_left _ (List.mem_append_right _ ?_)
            rw [if_neg hnot]
            exact List.mem_singleton_self _
          · intro hnot
            refine hmono _ ?_
            rw [herrs1]
            refine List.mem_append_right _ ?_
            rw [if_neg hnot]
            exact List.mem_singleton_self _
        · exact href q hq2

/-- Amended claim C9: the cycle detector builds adjacency from every edge,
declared or not, and starts its searches from the declared node ids; so
for every graph whose edge pairs (nonempty strings) form a directed cycle
through an undeclared id u, with the cycle reachable from some declared
id, the result reports the unresolved-reference errors for u and
"Pipeline graph contains cycles" together.  (As stated the claim covered
every such cycle; a cycle lying entirely among undeclared ids and
unreachable from all declared ids is missed, since the dfs never starts
there.) -/
theorem reachable_undeclared_cycle_reported (g : JsVal) (nodes edges : List JsVal)
    (ids : List String) (prs : List (String × String)) (u r : String)
    (hn : g.getField "nodes" = .ok (.arr nodes))
    (he : g.getField "edges" = .ok (.arr edges))
    (hids : List.Forall₂ (fun nd i => nd.getField "id" = Except.ok (.str i)) nodes ids)
    (hprs : List.Forall₂ (fun ed p => ed.getField "source" = Except.ok (.str p.1) ∧
      ed.getField "target" = Except.ok (.str p.2)) edges prs)
    (hpne : ∀ p ∈ prs, p.1 ≠ "" ∧ p.2 ≠ "")
    (hu : u ∉ ids) (hr : r ∈ ids)
    (hreach : Relation.ReflTransGen (pairRel prs) r u)
    (hcyc : Relation.TransGen (pairRel prs) u u) :
    "Pipeline graph contains cycles" ∈ (validatePipelineGraph g).errors ∧
    ("Edge references non-existent source node: " ++ u) ∈ (validatePipelineGraph g).errors ∧
    ("Edge references non-existent target node: " ++ u) ∈ (validatePipelineGraph g).errors := by
  obtain ⟨fields, rfl⟩ := getField_arr_obj g "nodes" nodes hn
  obtain ⟨errsN, nids, hnl, hsub⟩ := nodesLoop_ids_subset nodes ids hids [] []
  have hu_nids : u ∉ nids := by
    intro h
    rcases hsub u h with h2 | h2
    · simp at h2
    · exact hu h2
  obtain ⟨errsE, hel, hmono, href⟩ := edgesLoop_ref_errors nids edges prs hprs hpne errsN
  obtain ⟨b, hc, hiff⟩ := hasCycle_spec nodes edges ids prs hids hprs
  have hb : b = true := hiff.mpr ⟨r, hr, u, hreach, hcyc⟩
  subst hb
  have hmain := validateInner_main fields nodes edges hn he errsN nids hnl errsE hel true hc
  unfold validatePipelineGraph
  rw [hmain]
  simp only [if_pos rfl]
  refine ⟨?_, ?_, ?_⟩
  · exact List.mem_append_right _ (List.mem_singleton_self _)
  · obtain ⟨y, hy, _⟩ := (Relation.TransGen.head'_iff).mp hcyc
    exact List.mem_append_left _ ((href (u, y) hy).1 hu_nids)
  · obtain ⟨z, _, hz⟩ := (Relation.TransGen.tail'_iff).mp hcyc
    exact List.mem_append_left _ ((href (z, u) hz).2 hu_nids)

/-- Counterexample to claim C9 as stated: the edges of this document form
a directed two-cycle between the undeclared ids x and y, unreachable from
the only declared node a; the validator reports the four reference errors
but no cycle error, because the dfs only starts from declared node
ids. -/
theorem stranded_undeclared_cycle_missed :
    Relation.TransGen (pairRel [("x", "y"), ("y", "x")]) "x" "x" ∧
    "x" ∉ (["a"] : List String) ∧
    validatePipelineGraph strandedCycleDoc =
      ⟨false, ["Edge references non-existent source node: x",
               "Edge references non-existent target node: y",
               "Edge references non-existent source node: y",
               "Edge references non-existent target node: x"]⟩ ∧
    "Pipeline graph contains cycles" ∉ (validatePipelineGraph strandedCycleDoc).errors := by
  refine ⟨?_, by decide, by decide, by decide⟩
  exact Relation.TransGen.tail
    (Relation.TransGen.single (show pairRel [("x", "y"), ("y", "x")] "x" "y" by
      simp [pairRel]))
    (show pairRel [("x", "y"), ("y", "x")] "y" "x" by simp [pairRel])

/-- Witness for the amended claim C9 on a concrete document: the cycle a
to b to a runs through the undeclared id b and is reachable from the
declared id a, so the reference errors for b and the cycle error are
reported together. -/
theorem reachable_undeclared_cycle_reported_witness :
    "Pipeline graph contains cycles" ∈ (validatePipelineGraph reachableCycleDoc).errors ∧
    ("Edge references non-existent source node: " ++ "b") ∈
      (validatePipelineGraph reachableCycleDoc).errors ∧
    ("Edge references non-existent target node: " ++ "b") ∈
      (validatePipelineGraph reachableCycleDoc).errors :=
  reachable_undeclared_cycle_reported reachableCycleDoc
    [nodeDoc "a" "t"] [edgeDoc "a" "b", edgeDoc "b" "a"] ["a"] [("a", "b"), ("b", "a")]
    "b" "a" (by decide) (by decide)
    (List.Forall₂.cons (by decide) List.Forall₂.nil)
    (List.Forall₂.cons ⟨by decide, by decide⟩
      (List.Forall₂.cons ⟨by decide, by decide⟩ List.Forall₂.nil))
    (by decide) (by decide) (by decide)
    (Relation.ReflTransGen.single (show pairRel [("a", "b"), ("b", "a")] "a" "b" by
      simp [pairRel]))
    (Relation.TransGen.tail
      (Relation.TransGen.single (show pairRel [("a", "b"), ("b", "a")] "b" "a" by
        simp [pairRel]))
      (show pairRel [("a", "b"), ("b", "a")] "a" "b" by simp [pairRel]))
